import Mathlib

/-!
Verification of the `Kokkos::Impl::concurrent_bitset` allocator
(`src/core/src/SYCL/Kokkos_SYCL_WorkgroupReduction.hpp`, concurrent-bitset part).

The buffer `uint32_t[ buffer_bound ]` is modelled as a `BState`:
`header` is `buffer[0]` (packed state tag and used count) and `words`
is the bitmap `buffer[1 ...]`.  All machine words are `Nat` reduced
modulo `2^32` exactly where the C++ code can overflow.  The sequential
(quiescent) semantics of each operation runs the atomic read-modify-write
steps of the source in program order; the internal retry loop of the
acquire operations is indexed by explicit fuel, `none` meaning that the
loop has not returned after that many iterations.
-/

namespace ConcurrentBitset

/-- `2^32`, the modulus of `uint32_t` arithmetic. -/
def M32 : Nat := 2 ^ 32

/-- Source: `enum : uint32_t { bits_per_int_lg2 = 5 };` -/
def bits_per_int_lg2 : Nat := 5

/-- Source: `enum : uint32_t { bits_per_int_mask = (1 << bits_per_int_lg2) - 1 };` -/
def bits_per_int_mask : Nat := (1 <<< bits_per_int_lg2) - 1

/-- Source: `enum : uint32_t { max_bit_count_lg2 = 25 };` -/
def max_bit_count_lg2 : Nat := 25

/-- Source: `enum : uint32_t { max_bit_count = 1u << max_bit_count_lg2 };` -/
def max_bit_count : Nat := 1 <<< max_bit_count_lg2

/-- Source: `enum : uint32_t { state_shift = 26 };` -/
def state_shift : Nat := 26

/-- Source: `enum : uint32_t { state_used_mask = (1 << state_shift) - 1 };` -/
def state_used_mask : Nat := (1 <<< state_shift) - 1

/-- Source: `enum : uint32_t { state_header_mask = uint32_t(0x001f) << state_shift };` -/
def state_header_mask : Nat := 0x001f <<< state_shift

/-- The shared buffer: `header` is `buffer[0]`, `words` is `buffer[1 ...]`. -/
structure BState where
  header : Nat
  words : List Nat
deriving DecidableEq, Repr

/-- Read bitmap word `w`, i.e. `buffer[w + 1]`. -/
def getw (s : BState) (w : Nat) : Nat := s.words.getD w 0

/-- The used-count field of the header. -/
def usedOf (s : BState) : Nat := s.header &&& state_used_mask

/-- The state-tag field of the header. -/
def tagOf (s : BState) : Nat := state_header_mask &&& s.header

/-- Auxiliary trailing-ones counter with an explicit bit budget. -/
def countrOneAux : Nat → Nat → Nat
  | 0, _ => 0
  | fuel + 1, x => if x % 2 = 1 then countrOneAux fuel (x / 2) + 1 else 0

/-- `Kokkos::countr_one` on a 32-bit word: number of consecutive set bits
starting from the least significant bit. -/
def countrOne (x : Nat) : Nat := countrOneAux 32 x

/-- Source: `buffer_bound(bit_bound)`; number of `uint32_t` words
(header plus bitmap) needed for `bit_bound` bits, `0` when out of range. -/
def buffer_bound (bit_bound : Nat) : Nat :=
  if bit_bound ≤ max_bit_count then
    1 + (bit_bound >>> bits_per_int_lg2) +
      (if bit_bound &&& bits_per_int_mask ≠ 0 then 1 else 0)
  else 0

/-- Number of bitmap words for `bit_bound` bits (i.e. `buffer_bound` minus the header). -/
def bitmap_words (bit_bound : Nat) : Nat :=
  (bit_bound >>> bits_per_int_lg2) +
    (if bit_bound &&& bits_per_int_mask ≠ 0 then 1 else 0)

/-- The retry loop (`while (1) { ... }`) of `concurrent_bitset::acquire_bounded`.
Each iteration performs the `atomic_fetch_or`, returns on success, and
otherwise recomputes the candidate bit exactly as the source does
(including the extra `(j < 0) || (bit_bound <= bit)` wrap test of the
bounded variant).  The loop is indexed by fuel; `none` means the loop has
not returned after `fuel` iterations. -/
def acqLoop (word_count bit_bound state_bit_used : Nat) :
    Nat → BState → Nat → Option ((Int × Int) × BState)
  | 0, _, _ => none
  | fuel + 1, s, bit =>
    let word := bit >>> bits_per_int_lg2
    let mask := 1 <<< (bit &&& bits_per_int_mask)
    let prev := getw s word
    let s' : BState := ⟨s.header, s.words.set word (prev ||| mask)⟩
    if prev &&& mask = 0 then
      some ((Int.ofNat bit, Int.ofNat (state_bit_used + 1)), s')
    else
      let j : Int := if prev = M32 - 1 then -1 else Int.ofNat (countrOne prev)
      let bit1 := if 0 ≤ j then (word <<< bits_per_int_lg2) ||| j.toNat else bit
      let bit2 :=
        if j < 0 ∨ bit_bound ≤ bit1 then
          (if word + 1 < word_count then (word + 1) <<< bits_per_int_lg2 else 0) |||
            (bit1 &&& bits_per_int_mask)
        else bit1
      acqLoop word_count bit_bound state_bit_used fuel s' bit2

/-- The retry loop of `concurrent_bitset::acquire_bounded_lg2`; identical to
`acqLoop` except for the bit-update policy (no `bit_bound <= bit` re-test). -/
def acqLoopLg2 (word_count state_bit_used : Nat) :
    Nat → BState → Nat → Option ((Int × Int) × BState)
  | 0, _, _ => none
  | fuel + 1, s, bit =>
    let word := bit >>> bits_per_int_lg2
    let mask := 1 <<< (bit &&& bits_per_int_mask)
    let prev := getw s word
    let s' : BState := ⟨s.header, s.words.set word (prev ||| mask)⟩
    if prev &&& mask = 0 then
      some ((Int.ofNat bit, Int.ofNat (state_bit_used + 1)), s')
    else
      let j : Int := if prev = M32 - 1 then -1 else Int.ofNat (countrOne prev)
      let bit' :=
        if 0 ≤ j then (word <<< bits_per_int_lg2) ||| j.toNat
        else
          (if word + 1 < word_count then (word + 1) <<< bits_per_int_lg2 else 0) |||
            (bit &&& bits_per_int_mask)
      acqLoopLg2 word_count state_bit_used fuel s' bit'

/-- `concurrent_bitset::acquire_bounded(buffer, bit_bound, bit, state_header)`.
Returns the `(which_bit, bit_count)` pair together with the final buffer. -/
def acquire_bounded (fuel : Nat) (s : BState) (bit_bound bit state_header : Nat) :
    Option ((Int × Int) × BState) :=
  if max_bit_count < bit_bound ∨
      state_header &&& ((M32 - 1) ^^^ state_header_mask) ≠ 0 ∨ bit_bound ≤ bit then
    some (((-3 : Int), (-3 : Int)), s)
  else
    let word_count := bit_bound >>> bits_per_int_lg2
    let state := s.header
    let s1 : BState := ⟨(s.header + 1) % M32, s.words⟩
    let state_error := state_header ≠ (state &&& state_header_mask)
    let state_bit_used := state &&& state_used_mask
    if state_error ∨ bit_bound ≤ state_bit_used then
      some ((if state_error then ((-2 : Int), (-2 : Int)) else ((-1 : Int), (-1 : Int))),
        ⟨(s1.header + (M32 - 1)) % M32, s1.words⟩)
    else
      acqLoop word_count bit_bound state_bit_used fuel s1 bit

/-- `concurrent_bitset::acquire_bounded_lg2(buffer, bit_bound_lg2, bit, state_header)`. -/
def acquire_bounded_lg2 (fuel : Nat) (s : BState) (bit_bound_lg2 bit state_header : Nat) :
    Option ((Int × Int) × BState) :=
  let bit_bound := 1 <<< bit_bound_lg2
  let word_count := bit_bound >>> bits_per_int_lg2
  if max_bit_count_lg2 < bit_bound_lg2 ∨
      state_header &&& ((M32 - 1) ^^^ state_header_mask) ≠ 0 ∨ bit_bound < bit then
    some (((-3 : Int), (-3 : Int)), s)
  else
    let state := s.header
    let s1 : BState := ⟨(s.header + 1) % M32, s.words⟩
    let state_error := state_header ≠ (state &&& state_header_mask)
    let state_bit_used := state &&& state_used_mask
    if state_error ∨ bit_bound ≤ state_bit_used then
      some ((if state_error then ((-2 : Int), (-2 : Int)) else ((-1 : Int), (-1 : Int))),
        ⟨(s1.header + (M32 - 1)) % M32, s1.words⟩)
    else
      acqLoopLg2 word_count state_bit_used fuel s1 bit

/-- `concurrent_bitset::release(buffer, bit, state_header)`:
verify the tag, `atomic_fetch_and` the complemented mask, fail with `-1`
if the bit was already clear, otherwise decrement the header count. -/
def release (s : BState) (bit state_header : Nat) : Int × BState :=
  if state_header ≠ (state_header_mask &&& s.header) then ((-2 : Int), s)
  else
    let mask := 1 <<< (bit &&& bits_per_int_mask)
    let word := bit >>> bits_per_int_lg2
    let prev := getw s word
    let s1 : BState := ⟨s.header, s.words.set word (prev &&& ((M32 - 1) ^^^ mask))⟩
    if prev &&& mask = 0 then ((-1 : Int), s1)
    else
      let count := s1.header
      ((Int.ofNat (count &&& state_used_mask)) - 1, ⟨(s1.header + (M32 - 1)) % M32, s1.words⟩)

/-- `concurrent_bitset::set(buffer, bit, state_header)`:
verify the tag, `atomic_fetch_or` the mask, fail with `-1` if the bit
was previously clear, otherwise decrement the header count. -/
def set (s : BState) (bit state_header : Nat) : Int × BState :=
  if state_header ≠ (state_header_mask &&& s.header) then ((-2 : Int), s)
  else
    let mask := 1 <<< (bit &&& bits_per_int_mask)
    let word := bit >>> bits_per_int_lg2
    let prev := getw s word
    let s1 : BState := ⟨s.header, s.words.set word (prev ||| mask)⟩
    if prev &&& mask = 0 then ((-1 : Int), s1)
    else
      let count := s1.header
      ((Int.ofNat (count &&& state_used_mask)) - 1, ⟨(s1.header + (M32 - 1)) % M32, s1.words⟩)

/-- A freshly zero-initialized buffer sized for `bit_bound` bits. -/
def freshState (bit_bound : Nat) : BState :=
  ⟨0, List.replicate (bitmap_words bit_bound) 0⟩

/-- Value of bit `i` of the bitmap. -/
def bitGet (s : BState) (i : Nat) : Bool :=
  (getw s (i >>> bits_per_int_lg2)).testBit (i &&& bits_per_int_mask)

/-- Population count of the low 32 bits of a word. -/
def popcount32 (x : Nat) : Nat :=
  ∑ i ∈ Finset.range 32, if x.testBit i then 1 else 0

/-- Population count of the whole bitmap. -/
def popcountWords (l : List Nat) : Nat := (l.map popcount32).sum

/-- The quiescent invariant of the sequential embedding: the used-count
equals the popcount of all bitmap bits and is at most the capacity. -/
def Inv (s : BState) (capacity : Nat) : Prop :=
  usedOf s = popcountWords s.words ∧ usedOf s ≤ capacity

/-- Well-formedness of a buffer for capacity `capacity`: every word is a
`uint32_t` value and the bitmap has the size computed by `buffer_bound`. -/
def Wf (s : BState) (capacity : Nat) : Prop :=
  s.header < M32 ∧ (∀ w ∈ s.words, w < M32) ∧ s.words.length = bitmap_words capacity

/-- Run `n` sequential calls to `acquire_bounded` (fuel 1 each), the `k`-th
using the buffer's current used-count as hint, collecting the returned pairs. -/
def runAcquires (bit_bound : Nat) : Nat → BState → Option (List (Int × Int) × BState)
  | 0, s => some ([], s)
  | n + 1, s =>
    match acquire_bounded 1 s bit_bound (s.header &&& state_used_mask) 0 with
    | some (r, s') =>
      match runAcquires bit_bound n s' with
      | some (rs, f) => some (r :: rs, f)
      | none => none
    | none => none

/-- State reached after `k` successful fills of a fresh buffer of capacity
`bit_bound`: the header counts `k` and exactly bits `0..k-1` are set. -/
def FillState (bit_bound k : Nat) (s : BState) : Prop :=
  s.header = k ∧ s.words.length = bitmap_words bit_bound ∧
  ∀ i, bitGet s i = decide (i < k)

/-! ### Arithmetic facts about the packed constants -/

lemma M32_val : M32 = 4294967296 := by norm_num [M32]

lemma mask31_eq (x : Nat) : x &&& bits_per_int_mask = x % 32 := by
  have h : bits_per_int_mask = 2 ^ 5 - 1 := by
    norm_num [bits_per_int_mask, bits_per_int_lg2, Nat.shiftLeft_eq]
  rw [h, Nat.and_pow_two_sub_one_eq_mod]

lemma shr5_eq (x : Nat) : x >>> bits_per_int_lg2 = x / 32 := by
  rw [bits_per_int_lg2, Nat.shiftRight_eq_div_pow]

lemma usedmask_eq (x : Nat) : x &&& state_used_mask = x % 2 ^ 26 := by
  have h : state_used_mask = 2 ^ 26 - 1 := by
    norm_num [state_used_mask, state_shift, Nat.shiftLeft_eq]
  rw [h, Nat.and_pow_two_sub_one_eq_mod]

lemma one_shl (r : Nat) : (1 <<< r : Nat) = 2 ^ r := by
  rw [Nat.shiftLeft_eq, one_mul]

lemma max_bit_count_eq : max_bit_count = 2 ^ 25 := by
  norm_num [max_bit_count, max_bit_count_lg2, Nat.shiftLeft_eq]

lemma and_hmask (x : Nat) : x &&& state_header_mask = x / 2 ^ 26 % 2 ^ 5 * 2 ^ 26 := by
  have h31 : (0x001f : Nat) = 2 ^ 5 - 1 := by norm_num
  have hrhs : x / 2 ^ 26 % 2 ^ 5 * 2 ^ 26 = ((x >>> 26) % 2 ^ 5) <<< 26 := by
    rw [Nat.shiftLeft_eq, Nat.shiftRight_eq_div_pow]
  rw [hrhs]
  apply Nat.eq_of_testBit_eq
  intro i
  simp only [state_header_mask, state_shift, Nat.testBit_and, Nat.testBit_shiftLeft,
    Nat.testBit_mod_two_pow, Nat.testBit_shiftRight, h31, Nat.testBit_two_pow_sub_one]
  by_cases h26 : 26 ≤ i
  · have : 26 + (i - 26) = i := by omega
    simp [h26, this, Bool.and_comm, Bool.and_left_comm]
  · simp [h26]

lemma and_one_shl_eq_zero {x r : Nat} : x &&& (1 <<< r) = 0 ↔ x.testBit r = false := by
  rw [one_shl, Nat.and_two_pow]
  cases h : x.testBit r <;> simp [h]

lemma or_one_shl_self {x r : Nat} (h : x.testBit r = true) : x ||| (1 <<< r) = x := by
  rw [one_shl]
  apply Nat.eq_of_testBit_eq
  intro i
  rw [Nat.testBit_or, Nat.testBit_two_pow]
  by_cases hri : r = i
  · subst hri; simp [h]
  · simp [hri]

lemma testBit_or_one_shl_self {x r : Nat} : (x ||| (1 <<< r)).testBit r = true := by
  rw [one_shl, Nat.testBit_or, Nat.testBit_two_pow_self, Bool.or_true]

lemma and_compl_one_shl_self {x r : Nat} (h : x.testBit r = false) (hx : x < M32) :
    x &&& ((M32 - 1) ^^^ (1 <<< r)) = x := by
  rw [one_shl]
  apply Nat.eq_of_testBit_eq
  intro i
  rw [Nat.testBit_and, Nat.testBit_xor, Nat.testBit_two_pow]
  have hM : M32 - 1 = 2 ^ 32 - 1 := by rw [M32]
  rw [hM, Nat.testBit_two_pow_sub_one]
  by_cases hi : i < 32
  · by_cases hri : r = i
    · subst hri
      simp [h, hi]
    · simp [hi, hri]
  · have hxi : x.testBit i = false := by
      apply Nat.testBit_eq_false_of_lt
      calc x < M32 := hx
        _ = 2 ^ 32 := rfl
        _ ≤ 2 ^ i := Nat.pow_le_pow_right (by norm_num) (by omega)
    by_cases hri : r = i <;> simp [hi, hri, hxi]

lemma testBit_and_compl_one_shl_self {x r : Nat} (hr : r < 32) :
    (x &&& ((M32 - 1) ^^^ (1 <<< r))).testBit r = false := by
  rw [one_shl, Nat.testBit_and, Nat.testBit_xor, Nat.testBit_two_pow_self]
  have hM : M32 - 1 = 2 ^ 32 - 1 := by rw [M32]
  rw [hM, Nat.testBit_two_pow_sub_one]
  simp [hr]

lemma testBit_and_compl_one_shl_ne {x r i : Nat} (hi : i < 32) (hir : i ≠ r) :
    (x &&& ((M32 - 1) ^^^ (1 <<< r))).testBit i = x.testBit i := by
  rw [one_shl, Nat.testBit_and, Nat.testBit_xor, Nat.testBit_two_pow_of_ne (by omega)]
  have hM : M32 - 1 = 2 ^ 32 - 1 := by rw [M32]
  rw [hM, Nat.testBit_two_pow_sub_one]
  simp [hi]

lemma word_of_or {w j : Nat} (hj : j < 32) :
    ((w <<< bits_per_int_lg2) ||| j) >>> bits_per_int_lg2 = w := by
  apply Nat.eq_of_testBit_eq
  intro i
  rw [Nat.testBit_shiftRight, Nat.testBit_or, Nat.testBit_shiftLeft]
  have hji : j.testBit (bits_per_int_lg2 + i) = false := by
    apply Nat.testBit_eq_false_of_lt
    calc j < 32 := hj
      _ = 2 ^ 5 := by norm_num
      _ ≤ 2 ^ (bits_per_int_lg2 + i) := Nat.pow_le_pow_right (by norm_num)
        (by simp [bits_per_int_lg2])
  have h5 : bits_per_int_lg2 + i - bits_per_int_lg2 = i := by omega
  simp [hji, h5]

lemma rem_of_or {w j : Nat} (hj : j < 32) :
    ((w <<< bits_per_int_lg2) ||| j) &&& bits_per_int_mask = j := by
  apply Nat.eq_of_testBit_eq
  intro i
  have hm : bits_per_int_mask = 2 ^ 5 - 1 := by
    norm_num [bits_per_int_mask, bits_per_int_lg2, Nat.shiftLeft_eq]
  rw [Nat.testBit_and, Nat.testBit_or, Nat.testBit_shiftLeft, hm, Nat.testBit_two_pow_sub_one]
  by_cases hi : i < 5
  · have : ¬ bits_per_int_lg2 ≤ i := by simp [bits_per_int_lg2]; omega
    simp [hi, this]
  · have hji : j.testBit i = false := by
      apply Nat.testBit_eq_false_of_lt
      calc j < 32 := hj
        _ = 2 ^ 5 := by norm_num
        _ ≤ 2 ^ i := Nat.pow_le_pow_right (by norm_num) (by omega)
    simp [hi, hji]

lemma bit_decomp (x : Nat) :
    32 * (x >>> bits_per_int_lg2) + (x &&& bits_per_int_mask) = x := by
  rw [shr5_eq, mask31_eq]
  omega

lemma rem_lt_32 (x : Nat) : x &&& bits_per_int_mask < 32 := by
  rw [mask31_eq]; omega

/-! ### List helpers -/

lemma getD_set_self {l : List Nat} {i : Nat} (v : Nat) (h : i < l.length) :
    (l.set i v).getD i 0 = v := by
  rw [List.getD_eq_getElem?_getD, List.getElem?_set_self h]
  rfl

lemma getD_set_ne {l : List Nat} {i j : Nat} (v : Nat) (h : i ≠ j) :
    (l.set i v).getD j 0 = l.getD j 0 := by
  rw [List.getD_eq_getElem?_getD, List.getElem?_set_ne h, ← List.getD_eq_getElem?_getD]

lemma getD_eq_zero_of_le {l : List Nat} {i : Nat} (h : l.length ≤ i) : l.getD i 0 = 0 := by
  rw [List.getD_eq_getElem?_getD, List.getElem?_eq_none h]
  rfl

lemma lt_length_of_getD_ne_zero {l : List Nat} {i : Nat} (h : l.getD i 0 ≠ 0) :
    i < l.length := by
  by_contra hc
  exact h (getD_eq_zero_of_le (by omega))

lemma set_getD_self {l : List Nat} {i : Nat} : l.set i (l.getD i 0) = l := by
  by_cases h : i < l.length
  · apply List.ext_getElem?
    intro n
    by_cases hn : i = n
    · subst hn
      rw [List.getElem?_set_self h, List.getD_eq_getElem?_getD,
        List.getElem?_eq_getElem h]
      rfl
    · rw [List.getElem?_set_ne hn]
  · exact List.set_eq_of_length_le (by omega)

lemma getD_mem {l : List Nat} {i : Nat} (h : i < l.length) : l.getD i 0 ∈ l := by
  rw [List.getD_eq_getElem?_getD, List.getElem?_eq_getElem h]
  exact List.getElem_mem h

lemma getD_replicate_zero {n i : Nat} : (List.replicate n (0 : Nat)).getD i 0 = 0 := by
  induction n generalizing i with
  | zero => rfl
  | succ m ih =>
    cases i with
    | zero => rfl
    | succ k => exact ih

/-! ### Popcount helpers -/

lemma pc32_or {x r : Nat} (hr : r < 32) (h : x.testBit r = false) :
    popcount32 (x ||| (1 <<< r)) = popcount32 x + 1 := by
  unfold popcount32
  have hmem : r ∈ Finset.range 32 := Finset.mem_range.mpr hr
  rw [← Finset.add_sum_erase _ _ hmem, ← Finset.add_sum_erase _ _ hmem]
  have h1 : (x ||| (1 <<< r)).testBit r = true := testBit_or_one_shl_self
  have h2 : ∀ i ∈ (Finset.range 32).erase r,
      (if (x ||| (1 <<< r)).testBit i then 1 else 0) = (if x.testBit i then (1 : Nat) else 0) := by
    intro i hi
    have hir : i ≠ r := (Finset.mem_erase.mp hi).1
    rw [one_shl, Nat.testBit_or, Nat.testBit_two_pow_of_ne (by omega), Bool.or_false]
  rw [Finset.sum_congr rfl h2, h1, h]
  simp [Nat.add_comm, Nat.add_assoc, Nat.add_left_comm]

lemma pc32_and_compl {x r : Nat} (hr : r < 32) (h : x.testBit r = true) :
    popcount32 (x &&& ((M32 - 1) ^^^ (1 <<< r))) + 1 = popcount32 x := by
  unfold popcount32
  have hmem : r ∈ Finset.range 32 := Finset.mem_range.mpr hr
  rw [← Finset.add_sum_erase _ _ hmem, ← Finset.add_sum_erase _ _ hmem]
  have h1 : (x &&& ((M32 - 1) ^^^ (1 <<< r))).testBit r = false :=
    testBit_and_compl_one_shl_self hr
  have h2 : ∀ i ∈ (Finset.range 32).erase r,
      (if (x &&& ((M32 - 1) ^^^ (1 <<< r))).testBit i then 1 else 0) =
        (if x.testBit i then (1 : Nat) else 0) := by
    intro i hi
    have hir : i ≠ r := (Finset.mem_erase.mp hi).1
    have hilt : i < 32 := Finset.mem_range.mp (Finset.mem_of_mem_erase hi)
    rw [testBit_and_compl_one_shl_ne hilt hir]
  rw [Finset.sum_congr rfl h2, h1, h]
  simp [Nat.add_comm, Nat.add_assoc, Nat.add_left_comm]

lemma pc32_pos {x r : Nat} (hr : r < 32) (h : x.testBit r = true) : 1 ≤ popcount32 x := by
  unfold popcount32
  have hmem : r ∈ Finset.range 32 := Finset.mem_range.mpr hr
  rw [← Finset.add_sum_erase _ _ hmem, h]
  simp

lemma pcw_set {l : List Nat} {w : Nat} (v : Nat) (h : w < l.length) :
    popcountWords (l.set w v) + popcount32 (l.getD w 0) = popcountWords l + popcount32 v := by
  induction l generalizing w with
  | nil => simp at h
  | cons a t ih =>
    cases w with
    | zero =>
      simp only [List.set, popcountWords, List.map, List.sum_cons, List.getD_cons_zero]
      omega
    | succ k =>
      have hk : k < t.length := by simpa using h
      have := ih (w := k) hk
      simp only [List.set, popcountWords, List.map, List.sum_cons, List.getD_cons_succ] at *
      omega

lemma pc32_le_pcw {l : List Nat} {w : Nat} (h : w < l.length) :
    popcount32 (l.getD w 0) ≤ popcountWords l := by
  induction l generalizing w with
  | nil => simp at h
  | cons a t ih =>
    cases w with
    | zero =>
      simp only [popcountWords, List.map, List.sum_cons, List.getD_cons_zero]
      omega
    | succ k =>
      have hk : k < t.length := by simpa using h
      have := ih (w := k) hk
      simp only [popcountWords, List.map, List.sum_cons, List.getD_cons_succ] at *
      omega

/-! ### `countrOne` bounds -/

lemma countrOneAux_le (f x : Nat) : countrOneAux f x ≤ f := by
  induction f generalizing x with
  | zero => simp [countrOneAux]
  | succ k ih =>
    unfold countrOneAux
    by_cases h : x % 2 = 1
    · rw [if_pos h]
      have := ih (x / 2)
      omega
    · rw [if_neg h]
      omega

lemma countrOneAux_eq_fuel {f x : Nat} (h : countrOneAux f x = f) : x % 2 ^ f = 2 ^ f - 1 := by
  induction f generalizing x with
  | zero => simp [Nat.mod_one]
  | succ k ih =>
    unfold countrOneAux at h
    by_cases hx : x % 2 = 1
    · rw [if_pos hx] at h
      have hk : countrOneAux k (x / 2) = k := by omega
      have h2 := ih hk
      have hmul : x % (2 * 2 ^ k) = x % 2 + 2 * (x / 2 % 2 ^ k) := Nat.mod_mul
      have hpow : (2 : Nat) ^ (k + 1) = 2 * 2 ^ k := by ring
      have hpos : (1 : Nat) ≤ 2 ^ k := Nat.one_le_two_pow
      rw [hpow]
      omega
    · rw [if_neg hx] at h
      omega

lemma countrOne_le_31 {x : Nat} (hx : x < M32) (hne : x ≠ M32 - 1) : countrOne x ≤ 31 := by
  have hle : countrOneAux 32 x ≤ 32 := countrOneAux_le 32 x
  by_contra hc
  have h32 : countrOneAux 32 x = 32 := by unfold countrOne at hc; omega
  have := countrOneAux_eq_fuel h32
  rw [Nat.mod_eq_of_lt (by rw [M32] at hx; exact hx)] at this
  rw [M32_val] at hne
  norm_num at this
  exact hne this

/-! ### Sizing facts -/

lemma word_lt_bitmap_words {bit bound : Nat} (h : bit < bound) :
    bit >>> bits_per_int_lg2 < bitmap_words bound := by
  unfold bitmap_words
  rw [shr5_eq, shr5_eq, mask31_eq]
  split_ifs with h1 <;> omega

lemma max_wc_le_bitmap {bound : Nat} (h : 1 ≤ bound) :
    max (bound >>> bits_per_int_lg2) 1 ≤ bitmap_words bound := by
  unfold bitmap_words
  rw [shr5_eq, mask31_eq, Nat.max_le]
  split_ifs with h1 <;> omega

lemma buffer_bound_eq {bound : Nat} (h : bound ≤ max_bit_count) :
    buffer_bound bound = 1 + bitmap_words bound := by
  unfold buffer_bound bitmap_words
  rw [if_pos h, Nat.add_assoc]

lemma testBit_M32_sub_one {r : Nat} (hr : r < 32) : (M32 - 1).testBit r = true := by
  have hM : M32 - 1 = 2 ^ 32 - 1 := rfl
  rw [hM, Nat.testBit_two_pow_sub_one]
  simp [hr]

/-! ### Single steps of the claim loops -/

lemma acqLoop_step_free {wc bb used k : Nat} {s : BState} {bit : Nat}
    (hfree : (getw s (bit >>> bits_per_int_lg2)).testBit (bit &&& bits_per_int_mask) = false) :
    acqLoop wc bb used (k + 1) s bit =
      some ((Int.ofNat bit, Int.ofNat (used + 1)),
        ⟨s.header, s.words.set (bit >>> bits_per_int_lg2)
          ((getw s (bit >>> bits_per_int_lg2)) ||| (1 <<< (bit &&& bits_per_int_mask)))⟩) := by
  simp only [acqLoop]
  rw [if_pos (and_one_shl_eq_zero.mpr hfree)]

lemma acqLoop_step_full {wc bb used k : Nat} {s : BState} {bit : Nat}
    (hfull : getw s (bit >>> bits_per_int_lg2) = M32 - 1) :
    acqLoop wc bb used (k + 1) s bit =
      acqLoop wc bb used k s
        ((if bit >>> bits_per_int_lg2 + 1 < wc
            then (bit >>> bits_per_int_lg2 + 1) <<< bits_per_int_lg2 else 0) |||
          (bit &&& bits_per_int_mask)) := by
  have htb : (getw s (bit >>> bits_per_int_lg2)).testBit (bit &&& bits_per_int_mask) = true := by
    rw [hfull]; exact testBit_M32_sub_one (rem_lt_32 bit)
  have hand : ¬ (getw s (bit >>> bits_per_int_lg2)) &&&
      (1 <<< (bit &&& bits_per_int_mask)) = 0 := by
    rw [and_one_shl_eq_zero, htb]; simp
  have hs' : s.words.set (bit >>> bits_per_int_lg2)
      ((getw s (bit >>> bits_per_int_lg2)) ||| (1 <<< (bit &&& bits_per_int_mask))) = s.words := by
    rw [or_one_shl_self htb]
    exact set_getD_self
  simp only [acqLoop]
  rw [if_neg hand, if_pos hfull, hs']
  norm_num

lemma acqLoop_step_taken {wc bb used k : Nat} {s : BState} {bit : Nat}
    (hne : getw s (bit >>> bits_per_int_lg2) ≠ M32 - 1)
    (hset : (getw s (bit >>> bits_per_int_lg2)).testBit (bit &&& bits_per_int_mask) = true) :
    acqLoop wc bb used (k + 1) s bit =
      acqLoop wc bb used k s
        (if bb ≤ (bit >>> bits_per_int_lg2) <<< bits_per_int_lg2 |||
            countrOne (getw s (bit >>> bits_per_int_lg2)) then
          (if bit >>> bits_per_int_lg2 + 1 < wc
              then (bit >>> bits_per_int_lg2 + 1) <<< bits_per_int_lg2 else 0) |||
            (((bit >>> bits_per_int_lg2) <<< bits_per_int_lg2 |||
              countrOne (getw s (bit >>> bits_per_int_lg2))) &&& bits_per_int_mask)
        else (bit >>> bits_per_int_lg2) <<< bits_per_int_lg2 |||
          countrOne (getw s (bit >>> bits_per_int_lg2))) := by
  have hand : ¬ (getw s (bit >>> bits_per_int_lg2)) &&&
      (1 <<< (bit &&& bits_per_int_mask)) = 0 := by
    rw [and_one_shl_eq_zero, hset]; simp
  have hs' : s.words.set (bit >>> bits_per_int_lg2)
      ((getw s (bit >>> bits_per_int_lg2)) ||| (1 <<< (bit &&& bits_per_int_mask))) = s.words := by
    rw [or_one_shl_self hset]
    exact set_getD_self
  simp only [acqLoop]
  rw [if_neg hand, if_neg hne, hs']
  norm_num
  by_cases hbb : bb ≤ (bit >>> bits_per_int_lg2) <<< bits_per_int_lg2 |||
      countrOne (getw s (bit >>> bits_per_int_lg2))
  · rw [if_pos (Or.inr hbb), if_pos hbb]
  · rw [if_neg (not_or.mpr ⟨by omega, hbb⟩), if_neg hbb]

lemma acqLoopLg2_step_free {wc used k : Nat} {s : BState} {bit : Nat}
    (hfree : (getw s (bit >>> bits_per_int_lg2)).testBit (bit &&& bits_per_int_mask) = false) :
    acqLoopLg2 wc used (k + 1) s bit =
      some ((Int.ofNat bit, Int.ofNat (used + 1)),
        ⟨s.header, s.words.set (bit >>> bits_per_int_lg2)
          ((getw s (bit >>> bits_per_int_lg2)) ||| (1 <<< (bit &&& bits_per_int_mask)))⟩) := by
  simp only [acqLoopLg2]
  rw [if_pos (and_one_shl_eq_zero.mpr hfree)]

lemma acqLoopLg2_step_full {wc used k : Nat} {s : BState} {bit : Nat}
    (hfull : getw s (bit >>> bits_per_int_lg2) = M32 - 1) :
    acqLoopLg2 wc used (k + 1) s bit =
      acqLoopLg2 wc used k s
        ((if bit >>> bits_per_int_lg2 + 1 < wc
            then (bit >>> bits_per_int_lg2 + 1) <<< bits_per_int_lg2 else 0) |||
          (bit &&& bits_per_int_mask)) := by
  have htb : (getw s (bit >>> bits_per_int_lg2)).testBit (bit &&& bits_per_int_mask) = true := by
    rw [hfull]; exact testBit_M32_sub_one (rem_lt_32 bit)
  have hand : ¬ (getw s (bit >>> bits_per_int_lg2)) &&&
      (1 <<< (bit &&& bits_per_int_mask)) = 0 := by
    rw [and_one_shl_eq_zero, htb]; simp
  have hs' : s.words.set (bit >>> bits_per_int_lg2)
      ((getw s (bit >>> bits_per_int_lg2)) ||| (1 <<< (bit &&& bits_per_int_mask))) = s.words := by
    rw [or_one_shl_self htb]
    exact set_getD_self
  simp only [acqLoopLg2]
  rw [if_neg hand, if_pos hfull, hs']
  norm_num

lemma acqLoopLg2_step_taken {wc used k : Nat} {s : BState} {bit : Nat}
    (hne : getw s (bit >>> bits_per_int_lg2) ≠ M32 - 1)
    (hset : (getw s (bit >>> bits_per_int_lg2)).testBit (bit &&& bits_per_int_mask) = true) :
    acqLoopLg2 wc used (k + 1) s bit =
      acqLoopLg2 wc used k s
        ((bit >>> bits_per_int_lg2) <<< bits_per_int_lg2 |||
          countrOne (getw s (bit >>> bits_per_int_lg2))) := by
  have hand : ¬ (getw s (bit >>> bits_per_int_lg2)) &&&
      (1 <<< (bit &&& bits_per_int_mask)) = 0 := by
    rw [and_one_shl_eq_zero, hset]; simp
  have hs' : s.words.set (bit >>> bits_per_int_lg2)
      ((getw s (bit >>> bits_per_int_lg2)) ||| (1 <<< (bit &&& bits_per_int_mask))) = s.words := by
    rw [or_one_shl_self hset]
    exact set_getD_self
  simp only [acqLoopLg2]
  rw [if_neg hand, if_neg hne, hs']
  norm_num



lemma wrap_word_lt {wc len w' j : Nat} (hwc : max wc 1 ≤ len) (hj : j < 32) :
    ((if w' < wc then w' <<< bits_per_int_lg2 else 0) ||| j) >>> bits_per_int_lg2 < len := by
  rcases Nat.lt_or_ge w' wc with hlt | hge
  · rw [if_pos hlt, word_of_or hj]
    calc w' < wc := hlt
      _ ≤ max wc 1 := le_max_left _ _
      _ ≤ len := hwc
  · rw [if_neg (by omega), Nat.zero_or, shr5_eq]
    have h0 : j / 32 = 0 := by omega
    rw [h0]
    calc (0 : Nat) < 1 := one_pos
      _ ≤ max wc 1 := le_max_right _ _
      _ ≤ len := hwc

lemma acqLoop_sound {word_count bit_bound state_bit_used : Nat} :
    ∀ (fuel : Nat) (s : BState) (bit : Nat) (r : Int × Int) (f : BState),
      (∀ w ∈ s.words, w < M32) →
      bit >>> bits_per_int_lg2 < s.words.length →
      max word_count 1 ≤ s.words.length →
      acqLoop word_count bit_bound state_bit_used fuel s bit = some (r, f) →
      ∃ bn : Nat,
        bn >>> bits_per_int_lg2 < s.words.length ∧
        r = (Int.ofNat bn, Int.ofNat (state_bit_used + 1)) ∧
        (getw s (bn >>> bits_per_int_lg2)).testBit (bn &&& bits_per_int_mask) = false ∧
        f = ⟨s.header, s.words.set (bn >>> bits_per_int_lg2)
          ((getw s (bn >>> bits_per_int_lg2)) ||| (1 <<< (bn &&& bits_per_int_mask)))⟩ := by
  intro fuel
  induction fuel with
  | zero =>
    intro s bit r f _ _ _ h
    simp [acqLoop] at h
  | succ k ih =>
    intro s bit r f hw hbit hwc h
    by_cases hfree : (getw s (bit >>> bits_per_int_lg2)).testBit (bit &&& bits_per_int_mask) = false
    · rw [acqLoop_step_free hfree] at h
      refine ⟨bit, hbit, ?_, hfree, ?_⟩
      · have := (Option.some.inj h)
        exact (Prod.mk.injEq _ _ _ _ ▸ this).1.symm ▸ rfl
      · cases h
        rfl
    · have hset : (getw s (bit >>> bits_per_int_lg2)).testBit (bit &&& bits_per_int_mask) = true := by
        revert hfree
        cases (getw s (bit >>> bits_per_int_lg2)).testBit (bit &&& bits_per_int_mask) <;> simp
      by_cases hfull : getw s (bit >>> bits_per_int_lg2) = M32 - 1
      · rw [acqLoop_step_full hfull] at h
        refine ih s _ r f hw ?_ hwc h
        exact wrap_word_lt hwc (rem_lt_32 bit)
      · have hword : bit >>> bits_per_int_lg2 < s.words.length := hbit
        have hprevM : getw s (bit >>> bits_per_int_lg2) < M32 := by
          apply hw
          exact getD_mem hword
        have hc31 : countrOne (getw s (bit >>> bits_per_int_lg2)) ≤ 31 :=
          countrOne_le_31 hprevM hfull
        rw [acqLoop_step_taken hfull hset] at h
        refine ih s _ r f hw ?_ hwc h
        by_cases hbb : bit_bound ≤ (bit >>> bits_per_int_lg2) <<< bits_per_int_lg2 |||
            countrOne (getw s (bit >>> bits_per_int_lg2))
        · rw [if_pos hbb]
          exact wrap_word_lt hwc (rem_lt_32 _)
        · rw [if_neg hbb, word_of_or (by omega)]
          exact hbit

lemma acqLoopLg2_sound {word_count state_bit_used : Nat} :
    ∀ (fuel : Nat) (s : BState) (bit : Nat) (r : Int × Int) (f : BState),
      (∀ w ∈ s.words, w < M32) →
      bit >>> bits_per_int_lg2 < s.words.length →
      max word_count 1 ≤ s.words.length →
      acqLoopLg2 word_count state_bit_used fuel s bit = some (r, f) →
      ∃ bn : Nat,
        bn >>> bits_per_int_lg2 < s.words.length ∧
        r = (Int.ofNat bn, Int.ofNat (state_bit_used + 1)) ∧
        (getw s (bn >>> bits_per_int_lg2)).testBit (bn &&& bits_per_int_mask) = false ∧
        f = ⟨s.header, s.words.set (bn >>> bits_per_int_lg2)
          ((getw s (bn >>> bits_per_int_lg2)) ||| (1 <<< (bn &&& bits_per_int_mask)))⟩ := by
  intro fuel
  induction fuel with
  | zero =>
    intro s bit r f _ _ _ h
    simp [acqLoopLg2] at h
  | succ k ih =>
    intro s bit r f hw hbit hwc h
    by_cases hfree : (getw s (bit >>> bits_per_int_lg2)).testBit (bit &&& bits_per_int_mask) = false
    · rw [acqLoopLg2_step_free hfree] at h
      refine ⟨bit, hbit, ?_, hfree, ?_⟩
      · have := (Option.some.inj h)
        exact (Prod.mk.injEq _ _ _ _ ▸ this).1.symm ▸ rfl
      · cases h
        rfl
    · have hset : (getw s (bit >>> bits_per_int_lg2)).testBit (bit &&& bits_per_int_mask) = true := by
        revert hfree
        cases (getw s (bit >>> bits_per_int_lg2)).testBit (bit &&& bits_per_int_mask) <;> simp
      by_cases hfull : getw s (bit >>> bits_per_int_lg2) = M32 - 1
      · rw [acqLoopLg2_step_full hfull] at h
        refine ih s _ r f hw ?_ hwc h
        exact wrap_word_lt hwc (rem_lt_32 bit)
      · have hword : bit >>> bits_per_int_lg2 < s.words.length := hbit
        have hprevM : getw s (bit >>> bits_per_int_lg2) < M32 := by
          apply hw
          exact getD_mem hword
        have hc31 : countrOne (getw s (bit >>> bits_per_int_lg2)) ≤ 31 :=
          countrOne_le_31 hprevM hfull
        rw [acqLoopLg2_step_taken hfull hset] at h
        refine ih s _ r f hw ?_ hwc h
        rw [word_of_or (by omega)]
        exact hbit

/-! ### Header arithmetic -/

lemma header_roundtrip {h : Nat} (hh : h < M32) : ((h + 1) % M32 + (M32 - 1)) % M32 = h := by
  rw [M32_val] at *
  omega

lemma header_inc {h : Nat} (hh : h < M32) (hu : h &&& state_used_mask < 2 ^ 26 - 1) :
    (h + 1) % M32 = h + 1 ∧
    (h + 1) &&& state_used_mask = (h &&& state_used_mask) + 1 ∧
    (h + 1) &&& state_header_mask = h &&& state_header_mask := by
  simp only [usedmask_eq, and_hmask, M32_val] at *
  norm_num at *
  refine ⟨by omega, by omega, by omega⟩

lemma header_dec {h : Nat} (hh : h < M32) (hu : 1 ≤ h &&& state_used_mask) :
    (h + (M32 - 1)) % M32 = h - 1 ∧
    (h - 1) &&& state_used_mask = (h &&& state_used_mask) - 1 ∧
    (h - 1) &&& state_header_mask = h &&& state_header_mask := by
  simp only [usedmask_eq, and_hmask, M32_val] at *
  norm_num at *
  refine ⟨by omega, by omega, by omega⟩

/-! ### Path lemmas for the four operations -/

lemma acquire_bounded_invalid {fuel : Nat} {s : BState} {bound bit hdr : Nat}
    (h : max_bit_count < bound ∨ hdr &&& ((M32 - 1) ^^^ state_header_mask) ≠ 0 ∨ bound ≤ bit) :
    acquire_bounded fuel s bound bit hdr = some (((-3 : Int), (-3 : Int)), s) := by
  unfold acquire_bounded
  rw [if_pos h]

lemma acquire_bounded_tag_error {fuel : Nat} {s : BState} {bound bit hdr : Nat}
    (hval : ¬ (max_bit_count < bound ∨
      hdr &&& ((M32 - 1) ^^^ state_header_mask) ≠ 0 ∨ bound ≤ bit))
    (herr : hdr ≠ s.header &&& state_header_mask) :
    acquire_bounded fuel s bound bit hdr =
      some (((-2 : Int), (-2 : Int)), ⟨((s.header + 1) % M32 + (M32 - 1)) % M32, s.words⟩) := by
  unfold acquire_bounded
  rw [if_neg hval, if_pos (Or.inl herr), if_pos herr]

lemma acquire_bounded_full {fuel : Nat} {s : BState} {bound bit hdr : Nat}
    (hval : ¬ (max_bit_count < bound ∨
      hdr &&& ((M32 - 1) ^^^ state_header_mask) ≠ 0 ∨ bound ≤ bit))
    (hok : hdr = s.header &&& state_header_mask)
    (hfull : bound ≤ s.header &&& state_used_mask) :
    acquire_bounded fuel s bound bit hdr =
      some (((-1 : Int), (-1 : Int)), ⟨((s.header + 1) % M32 + (M32 - 1)) % M32, s.words⟩) := by
  unfold acquire_bounded
  rw [if_neg hval, if_pos (Or.inr hfull), if_neg (not_not_intro hok)]

lemma acquire_bounded_to_loop {fuel : Nat} {s : BState} {bound bit hdr : Nat}
    (hval : ¬ (max_bit_count < bound ∨
      hdr &&& ((M32 - 1) ^^^ state_header_mask) ≠ 0 ∨ bound ≤ bit))
    (hok : hdr = s.header &&& state_header_mask)
    (hlt : s.header &&& state_used_mask < bound) :
    acquire_bounded fuel s bound bit hdr =
      acqLoop (bound >>> bits_per_int_lg2) bound (s.header &&& state_used_mask) fuel
        ⟨(s.header + 1) % M32, s.words⟩ bit := by
  unfold acquire_bounded
  rw [if_neg hval, if_neg (by push_neg; exact ⟨hok, by omega⟩)]

lemma acquire_lg2_invalid {fuel : Nat} {s : BState} {lg2 bit hdr : Nat}
    (h : max_bit_count_lg2 < lg2 ∨
      hdr &&& ((M32 - 1) ^^^ state_header_mask) ≠ 0 ∨ 1 <<< lg2 < bit) :
    acquire_bounded_lg2 fuel s lg2 bit hdr = some (((-3 : Int), (-3 : Int)), s) := by
  unfold acquire_bounded_lg2
  rw [if_pos h]

lemma acquire_lg2_tag_error {fuel : Nat} {s : BState} {lg2 bit hdr : Nat}
    (hval : ¬ (max_bit_count_lg2 < lg2 ∨
      hdr &&& ((M32 - 1) ^^^ state_header_mask) ≠ 0 ∨ 1 <<< lg2 < bit))
    (herr : hdr ≠ s.header &&& state_header_mask) :
    acquire_bounded_lg2 fuel s lg2 bit hdr =
      some (((-2 : Int), (-2 : Int)), ⟨((s.header + 1) % M32 + (M32 - 1)) % M32, s.words⟩) := by
  unfold acquire_bounded_lg2
  rw [if_neg hval, if_pos (Or.inl herr), if_pos herr]

lemma acquire_lg2_full {fuel : Nat} {s : BState} {lg2 bit hdr : Nat}
    (hval : ¬ (max_bit_count_lg2 < lg2 ∨
      hdr &&& ((M32 - 1) ^^^ state_header_mask) ≠ 0 ∨ 1 <<< lg2 < bit))
    (hok : hdr = s.header &&& state_header_mask)
    (hfull : 1 <<< lg2 ≤ s.header &&& state_used_mask) :
    acquire_bounded_lg2 fuel s lg2 bit hdr =
      some (((-1 : Int), (-1 : Int)), ⟨((s.header + 1) % M32 + (M32 - 1)) % M32, s.words⟩) := by
  unfold acquire_bounded_lg2
  rw [if_neg hval, if_pos (Or.inr hfull), if_neg (not_not_intro hok)]

lemma acquire_lg2_to_loop {fuel : Nat} {s : BState} {lg2 bit hdr : Nat}
    (hval : ¬ (max_bit_count_lg2 < lg2 ∨
      hdr &&& ((M32 - 1) ^^^ state_header_mask) ≠ 0 ∨ 1 <<< lg2 < bit))
    (hok : hdr = s.header &&& state_header_mask)
    (hlt : s.header &&& state_used_mask < 1 <<< lg2) :
    acquire_bounded_lg2 fuel s lg2 bit hdr =
      acqLoopLg2 ((1 <<< lg2) >>> bits_per_int_lg2) (s.header &&& state_used_mask) fuel
        ⟨(s.header + 1) % M32, s.words⟩ bit := by
  unfold acquire_bounded_lg2
  rw [if_neg hval, if_neg (by push_neg; exact ⟨hok, by omega⟩)]

lemma release_tag_error {s : BState} {bit hdr : Nat}
    (h : hdr ≠ state_header_mask &&& s.header) : release s bit hdr = ((-2 : Int), s) := by
  unfold release
  rw [if_pos h]

lemma release_already {s : BState} {bit hdr : Nat} (hw : ∀ w ∈ s.words, w < M32)
    (hok : hdr = state_header_mask &&& s.header)
    (hclear : (getw s (bit >>> bits_per_int_lg2)).testBit (bit &&& bits_per_int_mask) = false) :
    release s bit hdr = ((-1 : Int), s) := by
  unfold release
  rw [if_neg (not_not_intro hok), if_pos (and_one_shl_eq_zero.mpr hclear)]
  by_cases hp : getw s (bit >>> bits_per_int_lg2) = 0
  · rw [hp, Nat.zero_and]
    have hz : s.words.set (bit >>> bits_per_int_lg2) 0 = s.words := by
      have h0 : (0 : Nat) = s.words.getD (bit >>> bits_per_int_lg2) 0 := by
        unfold getw at hp
        omega
      rw [h0]
      exact set_getD_self
    rw [hz]
  · have hword : bit >>> bits_per_int_lg2 < s.words.length :=
      lt_length_of_getD_ne_zero hp
    have hM : getw s (bit >>> bits_per_int_lg2) < M32 := hw _ (getD_mem hword)
    rw [and_compl_one_shl_self hclear hM]
    rw [show s.words.set (bit >>> bits_per_int_lg2) (getw s (bit >>> bits_per_int_lg2)) = s.words
      from set_getD_self]

lemma release_ok {s : BState} {bit hdr : Nat}
    (hok : hdr = state_header_mask &&& s.header)
    (hset : (getw s (bit >>> bits_per_int_lg2)).testBit (bit &&& bits_per_int_mask) = true) :
    release s bit hdr =
      (Int.ofNat (s.header &&& state_used_mask) - 1,
        ⟨(s.header + (M32 - 1)) % M32, s.words.set (bit >>> bits_per_int_lg2)
          ((getw s (bit >>> bits_per_int_lg2)) &&&
            ((M32 - 1) ^^^ (1 <<< (bit &&& bits_per_int_mask))))⟩) := by
  unfold release
  rw [if_neg (not_not_intro hok), if_neg (by rw [and_one_shl_eq_zero, hset]; simp)]

lemma acqLoopLg2_fst_nonneg {wc used : Nat} :
    ∀ (fuel : Nat) (s : BState) (bit : Nat) (r : Int × Int) (f : BState),
      acqLoopLg2 wc used fuel s bit = some (r, f) → 0 ≤ r.1 := by
  intro fuel
  induction fuel with
  | zero =>
    intro s bit r f h
    simp [acqLoopLg2] at h
  | succ k ih =>
    intro s bit r f h
    by_cases hfree : (getw s (bit >>> bits_per_int_lg2)).testBit (bit &&& bits_per_int_mask) = false
    · rw [acqLoopLg2_step_free hfree] at h
      cases h
      exact Int.ofNat_nonneg _
    · have hset : (getw s (bit >>> bits_per_int_lg2)).testBit (bit &&& bits_per_int_mask) = true := by
        revert hfree
        cases (getw s (bit >>> bits_per_int_lg2)).testBit (bit &&& bits_per_int_mask) <;> simp
      by_cases hfull : getw s (bit >>> bits_per_int_lg2) = M32 - 1
      · rw [acqLoopLg2_step_full hfull] at h
        exact ih _ _ r f h
      · rw [acqLoopLg2_step_taken hfull hset] at h
        exact ih _ _ r f h

lemma diverge_loop : ∀ fuel, acqLoop 1 33 32 fuel ⟨33, [M32 - 1, 0]⟩ 0 = none := by
  intro fuel
  induction fuel with
  | zero => rfl
  | succ k ih =>
    have hfull : getw ⟨33, [M32 - 1, 0]⟩ ((0 : Nat) >>> bits_per_int_lg2) = M32 - 1 := rfl
    rw [acqLoop_step_full hfull]
    convert ih using 2

/-- Claim C9: the spec asserts that the bit-claiming retry loop of `acquire`
always terminates once the reserve phase succeeded (arguments valid, tag
matching, prior used-count below capacity, used-count equal to the bitmap
popcount).  The code violates this: with `bit_bound = 33` on the well-formed
quiescent buffer `header = 32`, bitmap `[0xffffffff, 0]` (bits `0..31` claimed,
bit `32` free) and hint `0`, the reserve phase succeeds but the retry loop
spins forever because the wrap step `(word+1 < word_count ? ... : 0)` never
visits the final partial bitmap word.  The fuel-indexed embedding returns
`none` for every iteration budget. -/
theorem acquire_bounded_retry_loop_diverges :
    Inv ⟨32, [M32 - 1, 0]⟩ 33 ∧ Wf ⟨32, [M32 - 1, 0]⟩ 33 ∧
    ∀ fuel : Nat, acquire_bounded fuel ⟨32, [M32 - 1, 0]⟩ 33 0 0 = none := by
  refine ⟨⟨by decide, by decide⟩, ⟨by decide, by decide, by decide⟩, ?_⟩
  intro fuel
  rw [acquire_bounded_to_loop (by decide) (by decide) (by decide)]
  have e1 : (33 : Nat) >>> bits_per_int_lg2 = 1 := by decide
  have e2 : BState.header ⟨32, [M32 - 1, 0]⟩ &&& state_used_mask = 32 := by decide
  have e3 : (BState.header ⟨32, [M32 - 1, 0]⟩ + 1) % M32 = 33 := by decide
  rw [e1, e2, e3]
  exact diverge_loop fuel

/-- Claim C8 counterexample: the claim states that `acquire_bounded_lg2`
treats every out-of-range hint (`bit ≥ 2^bit_bound_lg2`) as permissible and
wraps it into range.  In fact a hint strictly greater than `2^lg2` is
rejected with `(-3, -3)`, and the one accepted out-of-range hint
`bit = 2^lg2` is used as-is: on a fresh buffer with `lg2 = 3` it claims the
out-of-range bit `8` instead of wrapping into `[0, 8)`. -/
theorem hint_range_check_counterexample :
    acquire_bounded_lg2 1 ⟨0, [0]⟩ 3 9 0 = some (((-3 : Int), (-3 : Int)), ⟨0, [0]⟩) ∧
    acquire_bounded_lg2 1 ⟨0, [0]⟩ 3 8 0 = some (((8 : Int), (1 : Int)), ⟨1, [256]⟩) := by
  exact ⟨by decide, by decide⟩

/-- Claim C8 (amended): `acquire_bounded` rejects every hint with
`capacity ≤ bit` by returning `(-3, -3)` and leaving the buffer unchanged;
`acquire_bounded_lg2` rejects hints with `2^lg2 < bit` the same way, and
accepts every hint `bit ≤ 2^lg2` (never returning the argument error for
them), i.e. its hint check is `bit ≤ 2^lg2` rather than `bit < 2^lg2`. -/
theorem hint_range_check :
    (∀ (fuel : Nat) (s : BState) (bound bit hdr : Nat), bound ≤ bit →
      acquire_bounded fuel s bound bit hdr = some (((-3 : Int), (-3 : Int)), s)) ∧
    (∀ (fuel : Nat) (s : BState) (lg2 bit hdr : Nat), 2 ^ lg2 < bit →
      acquire_bounded_lg2 fuel s lg2 bit hdr = some (((-3 : Int), (-3 : Int)), s)) ∧
    (∀ (fuel : Nat) (s : BState) (lg2 bit hdr : Nat) (r : Int × Int) (f : BState),
      lg2 ≤ max_bit_count_lg2 → hdr &&& ((M32 - 1) ^^^ state_header_mask) = 0 →
      bit ≤ 2 ^ lg2 →
      acquire_bounded_lg2 fuel s lg2 bit hdr = some (r, f) → r ≠ ((-3 : Int), (-3 : Int))) := by
  refine ⟨?_, ?_, ?_⟩
  · intro fuel s bound bit hdr h
    exact acquire_bounded_invalid (Or.inr (Or.inr h))
  · intro fuel s lg2 bit hdr h
    refine acquire_lg2_invalid (Or.inr (Or.inr ?_))
    rw [one_shl]
    exact h
  · intro fuel s lg2 bit hdr r f hlg hhdr hbit h
    have hval : ¬ (max_bit_count_lg2 < lg2 ∨
        hdr &&& ((M32 - 1) ^^^ state_header_mask) ≠ 0 ∨ 1 <<< lg2 < bit) := by
      push_neg
      refine ⟨by omega, hhdr, by rw [one_shl]; omega⟩
    by_cases herr : hdr = s.header &&& state_header_mask
    · by_cases hfull : 1 <<< lg2 ≤ s.header &&& state_used_mask
      · rw [acquire_lg2_full hval herr hfull] at h
        cases h
        decide
      · rw [acquire_lg2_to_loop hval herr (by omega)] at h
        have hpos := acqLoopLg2_fst_nonneg _ _ _ r f h
        intro hr
        rw [hr] at hpos
        norm_num at hpos
    · rw [acquire_lg2_tag_error hval herr] at h
      cases h
      decide

/-- Claim C8 witness: conjunct one applied at `bound = 8`, hint `9`. -/
theorem hint_range_check_witness :
    acquire_bounded 0 ⟨0, [0]⟩ 8 9 0 = some (((-3 : Int), (-3 : Int)), ⟨0, [0]⟩) :=
  hint_range_check.1 0 ⟨0, [0]⟩ 8 9 0 (by norm_num)

/-- Claim C5: calling `acquire_bounded`, `release` or `set` with an
`expectedTag` that fits the tag field but differs from the buffer header tag
fails with the tag-mismatch code (`(-2, -2)` for acquire, `-2` for release
and set) and returns the buffer in exactly its original state (for acquire,
the reserve increment is undone by the matching decrement). -/
theorem tag_mismatch_never_mutates (s : BState) (tag : Nat)
    (hh : s.header < M32)
    (hfit : tag &&& ((M32 - 1) ^^^ state_header_mask) = 0)
    (hne : tag ≠ tagOf s) :
    (∀ (fuel bound bit : Nat), bound ≤ max_bit_count → bit < bound →
      acquire_bounded fuel s bound bit tag = some (((-2 : Int), (-2 : Int)), s)) ∧
    (∀ bit : Nat, release s bit tag = ((-2 : Int), s)) ∧
    (∀ bit : Nat, ConcurrentBitset.set s bit tag = ((-2 : Int), s)) := by
  have hne2 : tag ≠ state_header_mask &&& s.header := hne
  have hne1 : tag ≠ s.header &&& state_header_mask := by
    rw [Nat.and_comm s.header state_header_mask]
    exact hne2
  refine ⟨?_, ?_, ?_⟩
  · intro fuel bound bit hbound hbit
    rw [acquire_bounded_tag_error (by push_neg; exact ⟨by omega, hfit, by omega⟩) hne1]
    rw [header_roundtrip hh]
  · intro bit
    exact release_tag_error hne2
  · intro bit
    unfold ConcurrentBitset.set
    rw [if_pos hne2]

/-- Claim C5 witness: a buffer with tag `0`, expected tag `2^26`. -/
theorem tag_mismatch_never_mutates_witness :
    release ⟨0, [0]⟩ 0 67108864 = ((-2 : Int), ⟨0, [0]⟩) :=
  (tag_mismatch_never_mutates ⟨0, [0]⟩ 67108864 (by decide) (by decide)
    (by decide)).2.1 0

/-- Claim C1 counterexample: the claim states `set` fails with the
already-claimed error when the bit was already `1` and succeeds (returning
the decremented used-count) when the bit was `0`.  The code does the exact
opposite: on header `5` (used-count `5`, tag `0`), setting bit `0` while it
is `0` returns the failure code `-1`, and setting it while it is already `1`
returns the decremented count `4`. -/
theorem set_claim_counterexample :
    (ConcurrentBitset.set ⟨5, [0]⟩ 0 0).1 = -1 ∧
    (ConcurrentBitset.set ⟨5, [1]⟩ 0 0).1 = 4 := by
  exact ⟨by decide, by decide⟩

/-- Claim C1 (amended): with a matching tag, `set` atomically ORs the bit
mask into the bitmap word; if the bit was previously `0` it returns `-1`
(leaving the bit now set and the header untouched), and if the bit was
already `1` it decrements the header and returns the prior used-count
minus one. -/
theorem set_semantics (s : BState) (b : Nat) :
    (bitGet s b = false →
      ConcurrentBitset.set s b (tagOf s) =
        ((-1 : Int), ⟨s.header, s.words.set (b >>> bits_per_int_lg2)
          ((getw s (b >>> bits_per_int_lg2)) ||| (1 <<< (b &&& bits_per_int_mask)))⟩)) ∧
    (bitGet s b = true →
      ConcurrentBitset.set s b (tagOf s) =
        (Int.ofNat (s.header &&& state_used_mask) - 1,
          ⟨(s.header + (M32 - 1)) % M32, s.words⟩)) := by
  have htag : ¬ (tagOf s ≠ state_header_mask &&& s.header) :=
    not_not_intro (show tagOf s = state_header_mask &&& s.header from rfl)
  constructor
  · intro hfree
    unfold bitGet at hfree
    unfold ConcurrentBitset.set
    rw [if_neg htag, if_pos (and_one_shl_eq_zero.mpr hfree)]
  · intro hbit
    unfold bitGet at hbit
    unfold ConcurrentBitset.set
    rw [if_neg htag, if_neg (by rw [and_one_shl_eq_zero, hbit]; simp)]
    have hwords : s.words.set (b >>> bits_per_int_lg2)
        ((getw s (b >>> bits_per_int_lg2)) ||| (1 <<< (b &&& bits_per_int_mask))) = s.words := by
      rw [or_one_shl_self hbit]
      exact set_getD_self
    rw [hwords]

/-- Claim C1 witness: `set` on an already-claimed bit with used-count `5`. -/
theorem set_semantics_witness :
    ConcurrentBitset.set ⟨5, [1]⟩ 0 (tagOf ⟨5, [1]⟩) = ((4 : Int), ⟨4, [1]⟩) := by
  have h := (set_semantics ⟨5, [1]⟩ 0).2 (by decide)
  rw [h]
  decide

/-- Claim C6 counterexample: the claim quantifies over every buffer state in
which bit `b` is claimed and the tag matches.  On the state `header = 0`
(used-count `0`, tag `0`) with bit `0` set — reachable from a fresh buffer
by a single `set` call — the first `release` does not succeed: it returns
the error value `-1`, and the header underflows so that the second `release`
returns `-2` (tag mismatch) instead of the claimed `-1`. -/
theorem release_idem_counterexample :
    ConcurrentBitset.release ⟨0, [1]⟩ 0 0 = ((-1 : Int), ⟨M32 - 1, [0]⟩) ∧
    (ConcurrentBitset.release ⟨M32 - 1, [0]⟩ 0 0).1 = -2 := by
  exact ⟨by decide, by decide⟩

/-- Claim C6 (amended): additionally assuming the used-count is at least `1`
(which always holds in quiescent states, where it equals the bitmap
popcount), the first `release` of a claimed bit succeeds and returns the
decremented used-count, and a second `release` of the same bit with no
intervening operation fails with `-1` and changes nothing. -/
theorem release_idempotent_failure (s : BState) (b : Nat)
    (hw : ∀ w ∈ s.words, w < M32) (hh : s.header < M32)
    (hbit : bitGet s b = true) (hused : 1 ≤ usedOf s) :
    ∃ s1 : BState,
      release s b (tagOf s) = (Int.ofNat (usedOf s) - 1, s1) ∧
      0 ≤ Int.ofNat (usedOf s) - 1 ∧
      usedOf s1 = usedOf s - 1 ∧ tagOf s1 = tagOf s ∧
      bitGet s1 b = false ∧ (∀ i, i ≠ b → bitGet s1 i = bitGet s i) ∧
      release s1 b (tagOf s) = ((-1 : Int), s1) := by
  unfold bitGet at hbit
  have hused' : 1 ≤ s.header &&& state_used_mask := hused
  have hdec := header_dec hh hused'
  have hprev_ne : getw s (b >>> bits_per_int_lg2) ≠ 0 := by
    intro h0
    rw [h0, Nat.zero_testBit] at hbit
    exact Bool.false_ne_true hbit
  have hword : b >>> bits_per_int_lg2 < s.words.length := lt_length_of_getD_ne_zero hprev_ne
  refine ⟨⟨(s.header + (M32 - 1)) % M32, s.words.set (b >>> bits_per_int_lg2)
    ((getw s (b >>> bits_per_int_lg2)) &&&
      ((M32 - 1) ^^^ (1 <<< (b &&& bits_per_int_mask))))⟩, ?_, ?_, ?_, ?_, ?_, ?_, ?_⟩
  · exact release_ok rfl hbit
  · rw [Int.ofNat_eq_coe]
    omega
  · show ((s.header + (M32 - 1)) % M32) &&& state_used_mask = usedOf s - 1
    rw [hdec.1, hdec.2.1]
    rfl
  · show state_header_mask &&& ((s.header + (M32 - 1)) % M32) = tagOf s
    unfold tagOf
    rw [hdec.1, Nat.and_comm state_header_mask (s.header - 1), hdec.2.2,
      Nat.and_comm s.header state_header_mask]
  · show ((⟨_, _⟩ : BState).words.getD (b >>> bits_per_int_lg2) 0).testBit
      (b &&& bits_per_int_mask) = false
    rw [getD_set_self _ hword]
    exact testBit_and_compl_one_shl_self (rem_lt_32 b)
  · intro i hib
    show ((s.words.set _ _).getD (i >>> bits_per_int_lg2) 0).testBit (i &&& bits_per_int_mask) =
      bitGet s i
    by_cases hsame : b >>> bits_per_int_lg2 = i >>> bits_per_int_lg2
    · rw [← hsame, getD_set_self _ hword]
      have hrne : i &&& bits_per_int_mask ≠ b &&& bits_per_int_mask := by
        intro hr
        apply hib
        have hi := bit_decomp i
        have hb := bit_decomp b
        omega
      rw [testBit_and_compl_one_shl_ne (rem_lt_32 i) hrne]
      unfold bitGet getw
      rw [hsame]
    · rw [getD_set_ne _ hsame]
      rfl
  · have hw1 : ∀ w ∈ (s.words.set (b >>> bits_per_int_lg2)
        ((getw s (b >>> bits_per_int_lg2)) &&&
          ((M32 - 1) ^^^ (1 <<< (b &&& bits_per_int_mask))))), w < M32 := by
      intro w hmem
      rcases List.mem_or_eq_of_mem_set hmem with hmem2 | heq
      · exact hw w hmem2
      · rw [heq]
        calc getw s (b >>> bits_per_int_lg2) &&&
              ((M32 - 1) ^^^ (1 <<< (b &&& bits_per_int_mask)))
            ≤ (M32 - 1) ^^^ (1 <<< (b &&& bits_per_int_mask)) := Nat.and_le_right
          _ < M32 := by
              apply Nat.xor_lt_two_pow (x := M32 - 1) (y := 1 <<< (b &&& bits_per_int_mask))
                (n := 32) <;> [skip; rw [one_shl]] <;>
                first
                  | exact Nat.sub_lt (by norm_num [M32]) one_pos
                  | exact Nat.pow_lt_pow_right one_lt_two (by have := rem_lt_32 b; omega)
    apply release_already hw1
    · show state_header_mask &&& s.header = state_header_mask &&& ((s.header + (M32 - 1)) % M32)
      rw [hdec.1, Nat.and_comm state_header_mask (s.header - 1), hdec.2.2,
        Nat.and_comm s.header state_header_mask]
    · show ((s.words.set _ _).getD (b >>> bits_per_int_lg2) 0).testBit
        (b &&& bits_per_int_mask) = false
      rw [getD_set_self _ hword]
      exact testBit_and_compl_one_shl_self (rem_lt_32 b)

/-- Claim C6 witness: header `1` (used-count `1`), bit `0` claimed. -/
theorem release_idempotent_failure_witness :
    ∃ s1 : BState,
      release ⟨1, [1]⟩ 0 (tagOf ⟨1, [1]⟩) = (Int.ofNat (usedOf ⟨1, [1]⟩) - 1, s1) ∧
      0 ≤ Int.ofNat (usedOf ⟨1, [1]⟩) - 1 ∧
      usedOf s1 = usedOf ⟨1, [1]⟩ - 1 ∧ tagOf s1 = tagOf ⟨1, [1]⟩ ∧
      bitGet s1 0 = false ∧ (∀ i, i ≠ 0 → bitGet s1 i = bitGet ⟨1, [1]⟩ i) ∧
      release s1 0 (tagOf ⟨1, [1]⟩) = ((-1 : Int), s1) :=
  release_idempotent_failure ⟨1, [1]⟩ 0
    (by intro w hw2; simp at hw2; subst hw2; decide)
    (by decide) (by decide) (by decide)

lemma or_and_compl_one_shl {x r : Nat} (h : x.testBit r = false) (hx : x < M32)
    (hr : r < 32) :
    (x ||| (1 <<< r)) &&& ((M32 - 1) ^^^ (1 <<< r)) = x := by
  apply Nat.eq_of_testBit_eq
  intro i
  rw [one_shl, Nat.testBit_and, Nat.testBit_or, Nat.testBit_xor, Nat.testBit_two_pow]
  have hM : M32 - 1 = 2 ^ 32 - 1 := rfl
  rw [hM, Nat.testBit_two_pow_sub_one]
  by_cases hi : i < 32
  · by_cases hri : r = i
    · subst hri
      simp [h, hi]
    · simp [hi, hri]
  · have hxi : x.testBit i = false := by
      apply Nat.testBit_eq_false_of_lt
      calc x < M32 := hx
        _ = 2 ^ 32 := rfl
        _ ≤ 2 ^ i := Nat.pow_le_pow_right (by norm_num) (by omega)
    by_cases hri : r = i
    · omega
    · simp [hi, hri, hxi]

lemma acquire_bounded_success {fuel : Nat} {s : BState} {bound bit hdr : Nat}
    {bn : Nat} {c : Int} {f : BState}
    (hw : ∀ w ∈ s.words, w < M32) (hlen : s.words.length = bitmap_words bound)
    (h : acquire_bounded fuel s bound bit hdr = some ((Int.ofNat bn, c), f)) :
    bound ≤ max_bit_count ∧ hdr &&& ((M32 - 1) ^^^ state_header_mask) = 0 ∧ bit < bound ∧
    hdr = s.header &&& state_header_mask ∧
    s.header &&& state_used_mask < bound ∧
    c = Int.ofNat ((s.header &&& state_used_mask) + 1) ∧
    bn >>> bits_per_int_lg2 < s.words.length ∧
    bitGet s bn = false ∧
    f = ⟨(s.header + 1) % M32, s.words.set (bn >>> bits_per_int_lg2)
      ((getw s (bn >>> bits_per_int_lg2)) ||| (1 <<< (bn &&& bits_per_int_mask)))⟩ := by
  by_cases hval : max_bit_count < bound ∨
      hdr &&& ((M32 - 1) ^^^ state_header_mask) ≠ 0 ∨ bound ≤ bit
  · rw [acquire_bounded_invalid hval] at h
    simp only [Option.some.injEq, Prod.mk.injEq] at h
    have h3 := h.1.1
    rw [Int.ofNat_eq_coe] at h3
    omega
  · push_neg at hval
    obtain ⟨hbound, hhdr, hbit⟩ := hval
    by_cases herr : hdr = s.header &&& state_header_mask
    · by_cases hfull : bound ≤ s.header &&& state_used_mask
      · rw [acquire_bounded_full (by push_neg; exact ⟨hbound, hhdr, hbit⟩) herr hfull] at h
        simp only [Option.some.injEq, Prod.mk.injEq] at h
        have h3 := h.1.1
        rw [Int.ofNat_eq_coe] at h3
        omega
      · rw [acquire_bounded_to_loop (by push_neg; exact ⟨hbound, hhdr, hbit⟩) herr
          (by omega)] at h
        have hs1 : (⟨(s.header + 1) % M32, s.words⟩ : BState).words = s.words := rfl
        obtain ⟨bn2, hbn2, hr, hcl, hf⟩ :=
          acqLoop_sound fuel ⟨(s.header + 1) % M32, s.words⟩ bit (Int.ofNat bn, c) f
            hw (by rw [hs1, hlen]; exact word_lt_bitmap_words (by omega))
            (by rw [hs1, hlen]; exact max_wc_le_bitmap (by omega)) h
        simp only [Prod.mk.injEq] at hr
        have hbn : bn2 = bn := by
          have h4 := hr.1
          rw [Int.ofNat_eq_coe, Int.ofNat_eq_coe] at h4
          omega
        subst hbn
        exact ⟨by omega, hhdr, by omega, herr, by omega, hr.2, hbn2, hcl, hf⟩
    · rw [acquire_bounded_tag_error (by push_neg; exact ⟨hbound, hhdr, hbit⟩) herr] at h
      simp only [Option.some.injEq, Prod.mk.injEq] at h
      have h3 := h.1.1
      rw [Int.ofNat_eq_coe] at h3
      omega

/-- Claim C2 counterexample: the claim asserts every successful acquire
returns a bit strictly below the capacity.  `acquire_bounded_lg2` with
`lg2 = 3` accepts the hint `8 = 2^3` and successfully claims bit `8`,
which is not below the capacity `2^3 = 8`. -/
theorem acquire_result_spec_counterexample :
    acquire_bounded_lg2 1 ⟨0, [0]⟩ 3 8 0 = some (((8 : Int), (1 : Int)), ⟨1, [256]⟩) ∧
    ¬ ((8 : Int) < (2 : Int) ^ 3) := by
  exact ⟨by decide, by decide⟩

/-- Claim C2 (amended): for a well-formed buffer (words are `uint32_t`
values, bitmap sized by `buffer_bound`) and an in-range hint, every
completed `acquire_bounded` or `acquire_bounded_lg2` call returns either an
error pair `(c, c)` with `c ∈ {-1, -2, -3}`, or a success pair
`(bn, priorUsed + 1)` where `0 ≤ bn < 32·⌈capacity/32⌉` (the claimed bit can
lie at or beyond the capacity, but stays inside the allocated bitmap
words), the claimed bit was `0` immediately before the claiming atomic OR
and is `1` in the final buffer. -/
theorem acquire_result_spec :
    (∀ (fuel : Nat) (s : BState) (bound bit hdr : Nat) (r : Int × Int) (f : BState),
      (∀ w ∈ s.words, w < M32) → s.words.length = bitmap_words bound →
      acquire_bounded fuel s bound bit hdr = some (r, f) →
      (r = ((-3 : Int), (-3 : Int)) ∨ r = ((-2 : Int), (-2 : Int)) ∨
        r = ((-1 : Int), (-1 : Int))) ∨
      (∃ bn : Nat, r = (Int.ofNat bn, Int.ofNat (usedOf s + 1)) ∧
        bn < 32 * bitmap_words bound ∧ bitGet s bn = false ∧ bitGet f bn = true)) ∧
    (∀ (fuel : Nat) (s : BState) (lg2 bit hdr : Nat) (r : Int × Int) (f : BState),
      (∀ w ∈ s.words, w < M32) → s.words.length = bitmap_words (2 ^ lg2) →
      bit < 2 ^ lg2 →
      acquire_bounded_lg2 fuel s lg2 bit hdr = some (r, f) →
      (r = ((-3 : Int), (-3 : Int)) ∨ r = ((-2 : Int), (-2 : Int)) ∨
        r = ((-1 : Int), (-1 : Int))) ∨
      (∃ bn : Nat, r = (Int.ofNat bn, Int.ofNat (usedOf s + 1)) ∧
        bn < 32 * bitmap_words (2 ^ lg2) ∧ bitGet s bn = false ∧ bitGet f bn = true)) := by
  constructor
  · intro fuel s bound bit hdr r f hw hlen h
    by_cases hval : max_bit_count < bound ∨
        hdr &&& ((M32 - 1) ^^^ state_header_mask) ≠ 0 ∨ bound ≤ bit
    · rw [acquire_bounded_invalid hval] at h
      simp only [Option.some.injEq, Prod.mk.injEq] at h
      exact Or.inl (Or.inl h.1.symm)
    · have hval' := hval
      push_neg at hval'
      obtain ⟨hbound, hhdr, hbit⟩ := hval'
      by_cases herr : hdr = s.header &&& state_header_mask
      · by_cases hfull : bound ≤ s.header &&& state_used_mask
        · rw [acquire_bounded_full hval herr hfull] at h
          simp only [Option.some.injEq, Prod.mk.injEq] at h
          exact Or.inl (Or.inr (Or.inr h.1.symm))
        · rw [acquire_bounded_to_loop hval herr (by omega)] at h
          have hs1 : (⟨(s.header + 1) % M32, s.words⟩ : BState).words = s.words := rfl
          obtain ⟨bn, hbn, hr, hcl, hf⟩ :=
            acqLoop_sound fuel ⟨(s.header + 1) % M32, s.words⟩ bit r f
              hw (by rw [hs1, hlen]; exact word_lt_bitmap_words (by omega))
              (by rw [hs1, hlen]; exact max_wc_le_bitmap (by omega)) h
          have hbn' : bn >>> bits_per_int_lg2 < s.words.length := hbn
          refine Or.inr ⟨bn, hr, ?_, hcl, ?_⟩
          · rw [← hlen]
            rw [shr5_eq] at hbn'
            omega
          · rw [hf]
            show ((s.words.set (bn >>> bits_per_int_lg2) _).getD
              (bn >>> bits_per_int_lg2) 0).testBit (bn &&& bits_per_int_mask) = true
            rw [getD_set_self _ hbn']
            exact testBit_or_one_shl_self
      · rw [acquire_bounded_tag_error hval herr] at h
        simp only [Option.some.injEq, Prod.mk.injEq] at h
        exact Or.inl (Or.inr (Or.inl h.1.symm))
  · intro fuel s lg2 bit hdr r f hw hlen hbit h
    by_cases hval : max_bit_count_lg2 < lg2 ∨
        hdr &&& ((M32 - 1) ^^^ state_header_mask) ≠ 0 ∨ 1 <<< lg2 < bit
    · rw [acquire_lg2_invalid hval] at h
      simp only [Option.some.injEq, Prod.mk.injEq] at h
      exact Or.inl (Or.inl h.1.symm)
    · have hval' := hval
      push_neg at hval'
      obtain ⟨hbound, hhdr, hbit'⟩ := hval'
      by_cases herr : hdr = s.header &&& state_header_mask
      · by_cases hfull : 1 <<< lg2 ≤ s.header &&& state_used_mask
        · rw [acquire_lg2_full hval herr hfull] at h
          simp only [Option.some.injEq, Prod.mk.injEq] at h
          exact Or.inl (Or.inr (Or.inr h.1.symm))
        · rw [acquire_lg2_to_loop hval herr (by omega)] at h
          have hs1 : (⟨(s.header + 1) % M32, s.words⟩ : BState).words = s.words := rfl
          have hshl : (1 : Nat) <<< lg2 = 2 ^ lg2 := one_shl lg2
          rw [hshl] at h
          obtain ⟨bn, hbn, hr, hcl, hf⟩ :=
            acqLoopLg2_sound fuel ⟨(s.header + 1) % M32, s.words⟩ bit r f
              hw (by rw [hs1, hlen]; exact word_lt_bitmap_words (by omega))
              (by rw [hs1, hlen]; exact max_wc_le_bitmap (by omega)) h
          have hbn' : bn >>> bits_per_int_lg2 < s.words.length := hbn
          refine Or.inr ⟨bn, hr, ?_, hcl, ?_⟩
          · rw [← hlen]
            rw [shr5_eq] at hbn'
            omega
          · rw [hf]
            show ((s.words.set (bn >>> bits_per_int_lg2) _).getD
              (bn >>> bits_per_int_lg2) 0).testBit (bn &&& bits_per_int_mask) = true
            rw [getD_set_self _ hbn']
            exact testBit_or_one_shl_self
      · rw [acquire_lg2_tag_error hval herr] at h
        simp only [Option.some.injEq, Prod.mk.injEq] at h
        exact Or.inl (Or.inr (Or.inl h.1.symm))

/-- Claim C2 witness: the classification applied to a successful acquire of
bit `3` on a buffer with bits `0..2` claimed. -/
theorem acquire_result_spec_witness :
    (((3 : Int), (4 : Int)) = ((-3 : Int), (-3 : Int)) ∨
      ((3 : Int), (4 : Int)) = ((-2 : Int), (-2 : Int)) ∨
      ((3 : Int), (4 : Int)) = ((-1 : Int), (-1 : Int))) ∨
    (∃ bn : Nat, ((3 : Int), (4 : Int)) = (Int.ofNat bn, Int.ofNat (usedOf ⟨3, [7]⟩ + 1)) ∧
      bn < 32 * bitmap_words 8 ∧ bitGet ⟨3, [7]⟩ bn = false ∧ bitGet ⟨4, [15]⟩ bn = true) :=
  acquire_result_spec.1 1 ⟨3, [7]⟩ 8 3 0 ((3 : Int), (4 : Int)) ⟨4, [15]⟩
    (by intro w hw2; simp at hw2; subst hw2; decide) (by decide) (by decide)

/-- Claim C7 counterexample: the claim asserts that whenever acquire succeeds
returning bit `b`, a subsequent acquire with hint `b` can again return `b`.
From the state header `0`, bitmap `[31]` with capacity `5` (all in-range bits
claimed but used-count `0`), `acquire_bounded` succeeds returning the
out-of-range bit `5`; after `release` restores the state, acquiring with
hint `5` returns `(-3, -3)` — bit `5` is not eligible to be claimed. -/
theorem roundtrip_counterexample :
    acquire_bounded 2 ⟨0, [31]⟩ 5 0 0 = some (((5 : Int), (1 : Int)), ⟨1, [63]⟩) ∧
    ConcurrentBitset.release ⟨1, [63]⟩ 5 0 = ((0 : Int), ⟨0, [31]⟩) ∧
    acquire_bounded 2 ⟨0, [31]⟩ 5 5 0 = some (((-3 : Int), (-3 : Int)), ⟨0, [31]⟩) := by
  exact ⟨by decide, by decide, by decide⟩

/-- Claim C7 (amended): for a well-formed buffer, whenever `acquire_bounded`
succeeds from state `s` returning a bit `bn`, `release` of that bit with the
same tag restores the buffer exactly to `s` (returning the used-count of `s`)
— unconditionally, even when `bn` lies at or beyond the capacity — and
provided `bn` lies below the capacity, a subsequent `acquire_bounded` with
hint `bn` succeeds again with exactly the same result and final buffer. -/
theorem acquire_release_roundtrip (fuel : Nat) (s : BState) (bound hint hdr : Nat)
    (bn : Nat) (c : Int) (f : BState)
    (hw : ∀ w ∈ s.words, w < M32) (hh : s.header < M32)
    (hlen : s.words.length = bitmap_words bound)
    (hsucc : acquire_bounded fuel s bound hint hdr = some ((Int.ofNat bn, c), f)) :
    release f bn hdr = (Int.ofNat (usedOf s), s) ∧
    (bn < bound →
      acquire_bounded 1 s bound bn hdr = some ((Int.ofNat bn, c), f)) := by
  obtain ⟨hbound, hhdr, hhint, hok, hused, hc, hword, hclear, hf⟩ :=
    acquire_bounded_success hw hlen hsucc
  unfold bitGet at hclear
  have hu26 : s.header &&& state_used_mask < 2 ^ 26 - 1 := by
    rw [max_bit_count_eq] at hbound
    have h2 : (2 : Nat) ^ 25 < 2 ^ 26 - 1 := by norm_num
    omega
  have hinc := header_inc hh hu26
  have hprevM : getw s (bn >>> bits_per_int_lg2) < M32 := hw _ (getD_mem hword)
  have hfh : f.header = (s.header + 1) % M32 := by rw [hf]
  have hgetf : getw f (bn >>> bits_per_int_lg2) =
      (getw s (bn >>> bits_per_int_lg2)) ||| (1 <<< (bn &&& bits_per_int_mask)) := by
    rw [hf]
    show (s.words.set _ _).getD _ 0 = _
    exact getD_set_self _ hword
  constructor
  · have htagf : hdr = state_header_mask &&& f.header := by
      rw [hfh, hinc.1, Nat.and_comm state_header_mask (s.header + 1), hinc.2.2,
        Nat.and_comm s.header state_header_mask]
      rw [Nat.and_comm state_header_mask s.header]
      exact hok
    have hsetf : (getw f (bn >>> bits_per_int_lg2)).testBit (bn &&& bits_per_int_mask) =
        true := by
      rw [hgetf]
      exact testBit_or_one_shl_self
    rw [release_ok htagf hsetf]
    have hfv : f.header &&& state_used_mask = (s.header &&& state_used_mask) + 1 := by
      rw [hfh, hinc.1, hinc.2.1]
    have hfw : f.words.set (bn >>> bits_per_int_lg2)
        ((getw f (bn >>> bits_per_int_lg2)) &&&
          ((M32 - 1) ^^^ (1 <<< (bn &&& bits_per_int_mask)))) = s.words := by
      rw [hgetf, or_and_compl_one_shl hclear hprevM (rem_lt_32 bn), hf]
      show (s.words.set _ _).set _ _ = s.words
      rw [List.set_set]
      exact set_getD_self
    have hfh2 : (f.header + (M32 - 1)) % M32 = s.header := by
      rw [hfh]
      exact header_roundtrip hh
    rw [hfv, hfw, hfh2]
    have hvint : Int.ofNat ((s.header &&& state_used_mask) + 1) - 1 =
        Int.ofNat (usedOf s) := by
      rw [Int.ofNat_eq_coe, Int.ofNat_eq_coe]
      unfold usedOf
      omega
    rw [hvint]
  · intro hbn
    rw [acquire_bounded_to_loop (by push_neg; exact ⟨by omega, hhdr, by omega⟩) hok
      (by omega)]
    rw [acqLoop_step_free
      (show (getw ⟨(s.header + 1) % M32, s.words⟩ (bn >>> bits_per_int_lg2)).testBit
        (bn &&& bits_per_int_mask) = false from hclear)]
    rw [hc, hf]
    rfl

/-- Claim C7 witness: acquiring bit 3 on a buffer with bits 0..2 claimed,
then releasing it. -/
theorem acquire_release_roundtrip_witness :
    release ⟨4, [15]⟩ 3 0 = (Int.ofNat (usedOf ⟨3, [7]⟩), ⟨3, [7]⟩) ∧
    acquire_bounded 1 ⟨3, [7]⟩ 8 3 0 = some ((Int.ofNat 3, (4 : Int)), ⟨4, [15]⟩) :=
  have h := acquire_release_roundtrip 1 ⟨3, [7]⟩ 8 3 0 3 (4 : Int) ⟨4, [15]⟩
    (by intro w hw2; simp at hw2; subst hw2; decide) (by decide) (by decide)
    (by decide)
  ⟨h.1, h.2 (by decide)⟩

/-- Claim C3: starting from any well-formed buffer satisfying the quiescent
invariant (used-count equals the popcount of all bitmap bits and is at most
the capacity), one completed call to `acquire_bounded` — with any arguments
and any result — or to `release` leaves the buffer satisfying the invariant
again. -/
theorem quiescent_invariant_preserved (s : BState) (capacity : Nat)
    (hh : s.header < M32) (hw : ∀ w ∈ s.words, w < M32)
    (hlen : s.words.length = bitmap_words capacity)
    (hinv : Inv s capacity) :
    (∀ (fuel bit hdr : Nat) (r : Int × Int) (f : BState),
      acquire_bounded fuel s capacity bit hdr = some (r, f) → Inv f capacity) ∧
    (∀ (bit hdr : Nat), Inv (release s bit hdr).2 capacity) := by
  obtain ⟨hpc, hcap⟩ := hinv
  unfold usedOf at hpc hcap
  constructor
  · intro fuel bit hdr r f h
    by_cases hval : max_bit_count < capacity ∨
        hdr &&& ((M32 - 1) ^^^ state_header_mask) ≠ 0 ∨ capacity ≤ bit
    · rw [acquire_bounded_invalid hval] at h
      simp only [Option.some.injEq, Prod.mk.injEq] at h
      rw [← h.2]
      exact ⟨hpc, hcap⟩
    · have hval' := hval
      push_neg at hval'
      obtain ⟨hbound, hhdr, hbit⟩ := hval'
      have hrestore : ((s.header + 1) % M32 + (M32 - 1)) % M32 = s.header :=
        header_roundtrip hh
      by_cases herr : hdr = s.header &&& state_header_mask
      · by_cases hfull : capacity ≤ s.header &&& state_used_mask
        · rw [acquire_bounded_full hval herr hfull] at h
          simp only [Option.some.injEq, Prod.mk.injEq] at h
          rw [← h.2, hrestore]
          exact ⟨hpc, hcap⟩
        · rw [acquire_bounded_to_loop hval herr (by omega)] at h
          obtain ⟨bn, hbn, hr, hcl, hf⟩ :=
            acqLoop_sound fuel ⟨(s.header + 1) % M32, s.words⟩ bit r f
              hw (show bit >>> bits_per_int_lg2 < s.words.length by
                rw [hlen]; exact word_lt_bitmap_words (by omega))
              (show max (capacity >>> bits_per_int_lg2) 1 ≤ s.words.length by
                rw [hlen]; exact max_wc_le_bitmap (by omega))
              h
          have hbn' : bn >>> bits_per_int_lg2 < s.words.length := hbn
          have hu26 : s.header &&& state_used_mask < 2 ^ 26 - 1 := by
            rw [max_bit_count_eq] at hbound
            have h2 : (2 : Nat) ^ 25 < 2 ^ 26 - 1 := by norm_num
            omega
          have hinc := header_inc hh hu26
          have hps : popcountWords (s.words.set (bn >>> bits_per_int_lg2)
              ((s.words.getD (bn >>> bits_per_int_lg2) 0) |||
                (1 <<< (bn &&& bits_per_int_mask)))) = popcountWords s.words + 1 := by
            have h1 := pcw_set (l := s.words) (w := bn >>> bits_per_int_lg2)
              ((s.words.getD (bn >>> bits_per_int_lg2) 0) |||
                (1 <<< (bn &&& bits_per_int_mask))) hbn'
            have h2 : popcount32 ((s.words.getD (bn >>> bits_per_int_lg2) 0) |||
                (1 <<< (bn &&& bits_per_int_mask))) =
                popcount32 (s.words.getD (bn >>> bits_per_int_lg2) 0) + 1 :=
              pc32_or (rem_lt_32 bn) hcl
            omega
          rw [hf]
          constructor
          · show ((s.header + 1) % M32) &&& state_used_mask = popcountWords _
            rw [hinc.1, hinc.2.1]
            show _ = popcountWords (s.words.set (bn >>> bits_per_int_lg2)
              ((s.words.getD (bn >>> bits_per_int_lg2) 0) |||
                (1 <<< (bn &&& bits_per_int_mask))))
            rw [hps, hpc]
          · show ((s.header + 1) % M32) &&& state_used_mask ≤ capacity
            rw [hinc.1, hinc.2.1]
            omega
      · rw [acquire_bounded_tag_error hval herr] at h
        simp only [Option.some.injEq, Prod.mk.injEq] at h
        rw [← h.2, hrestore]
        exact ⟨hpc, hcap⟩
  · intro bit hdr
    by_cases herr : hdr = state_header_mask &&& s.header
    · by_cases hset : (getw s (bit >>> bits_per_int_lg2)).testBit
          (bit &&& bits_per_int_mask) = true
      · rw [release_ok herr hset]
        show Inv ⟨(s.header + (M32 - 1)) % M32,
          s.words.set (bit >>> bits_per_int_lg2)
            ((s.words.getD (bit >>> bits_per_int_lg2) 0) &&&
              ((M32 - 1) ^^^ (1 <<< (bit &&& bits_per_int_mask))))⟩ capacity
        have hset' : (s.words.getD (bit >>> bits_per_int_lg2) 0).testBit
            (bit &&& bits_per_int_mask) = true := hset
        have hprev_ne : s.words.getD (bit >>> bits_per_int_lg2) 0 ≠ 0 := by
          intro h0
          rw [h0, Nat.zero_testBit] at hset'
          exact Bool.false_ne_true hset'
        have hwlt : bit >>> bits_per_int_lg2 < s.words.length :=
          lt_length_of_getD_ne_zero hprev_ne
        have hpos : 1 ≤ popcount32 (s.words.getD (bit >>> bits_per_int_lg2) 0) :=
          pc32_pos (rem_lt_32 bit) hset'
        have hle : popcount32 (s.words.getD (bit >>> bits_per_int_lg2) 0) ≤
            popcountWords s.words := pc32_le_pcw hwlt
        have husedpos : 1 ≤ s.header &&& state_used_mask := by omega
        have hdec := header_dec hh husedpos
        have hps : popcountWords (s.words.set (bit >>> bits_per_int_lg2)
            ((s.words.getD (bit >>> bits_per_int_lg2) 0) &&&
              ((M32 - 1) ^^^ (1 <<< (bit &&& bits_per_int_mask))))) + 1 =
            popcountWords s.words := by
          have h1 := pcw_set (l := s.words) (w := bit >>> bits_per_int_lg2)
            ((s.words.getD (bit >>> bits_per_int_lg2) 0) &&&
              ((M32 - 1) ^^^ (1 <<< (bit &&& bits_per_int_mask)))) hwlt
          have h2 : popcount32 ((s.words.getD (bit >>> bits_per_int_lg2) 0) &&&
              ((M32 - 1) ^^^ (1 <<< (bit &&& bits_per_int_mask)))) + 1 =
              popcount32 (s.words.getD (bit >>> bits_per_int_lg2) 0) :=
            pc32_and_compl (rem_lt_32 bit) hset'
          omega
        constructor
        · show ((s.header + (M32 - 1)) % M32) &&& state_used_mask =
            popcountWords (s.words.set (bit >>> bits_per_int_lg2)
              ((s.words.getD (bit >>> bits_per_int_lg2) 0) &&&
                ((M32 - 1) ^^^ (1 <<< (bit &&& bits_per_int_mask)))))
          rw [hdec.1, hdec.2.1]
          omega
        · show ((s.header + (M32 - 1)) % M32) &&& state_used_mask ≤ capacity
          rw [hdec.1, hdec.2.1]
          omega
      · have hclear : (getw s (bit >>> bits_per_int_lg2)).testBit
            (bit &&& bits_per_int_mask) = false := by
          revert hset
          cases (getw s (bit >>> bits_per_int_lg2)).testBit (bit &&& bits_per_int_mask) <;>
            simp
        rw [release_already hw herr hclear]
        exact ⟨hpc, hcap⟩
    · rw [release_tag_error herr]
      exact ⟨hpc, hcap⟩

/-- Claim C3 witness: one successful acquire on a fresh 8-bit buffer
preserves the invariant. -/
theorem quiescent_invariant_preserved_witness : Inv ⟨1, [1]⟩ 8 :=
  (quiescent_invariant_preserved ⟨0, [0]⟩ 8 (by decide)
    (by intro w hw2; simp at hw2; subst hw2; decide)
    (by decide) ⟨by decide, by decide⟩).1
    1 0 0 ((0 : Int), (1 : Int)) ⟨1, [1]⟩ (by decide)

lemma acqLoopLg2_eq_acqLoop {word_count bit_bound used : Nat}
    (hb : bit_bound = 32 * word_count ∨ word_count = 0) :
    ∀ (fuel : Nat) (s : BState) (bit : Nat),
      (∀ w ∈ s.words, w < M32) →
      bit >>> bits_per_int_lg2 < max word_count 1 →
      acqLoopLg2 word_count used fuel s bit = acqLoop word_count bit_bound used fuel s bit := by
  intro fuel
  induction fuel with
  | zero =>
    intro s bit _ _
    rfl
  | succ k ih =>
    intro s bit hw hword
    by_cases hfree : (getw s (bit >>> bits_per_int_lg2)).testBit (bit &&& bits_per_int_mask) = false
    · rw [acqLoopLg2_step_free hfree, acqLoop_step_free hfree]
    · have hset : (getw s (bit >>> bits_per_int_lg2)).testBit (bit &&& bits_per_int_mask) = true := by
        revert hfree
        cases (getw s (bit >>> bits_per_int_lg2)).testBit (bit &&& bits_per_int_mask) <;> simp
      by_cases hfull : getw s (bit >>> bits_per_int_lg2) = M32 - 1
      · rw [acqLoopLg2_step_full hfull, acqLoop_step_full hfull]
        exact ih s _ hw (wrap_word_lt (le_refl _) (rem_lt_32 bit))
      · have hprev_ne : getw s (bit >>> bits_per_int_lg2) ≠ 0 := by
          intro h0
          rw [h0, Nat.zero_testBit] at hset
          exact Bool.false_ne_true hset
        have hwlt : bit >>> bits_per_int_lg2 < s.words.length :=
          lt_length_of_getD_ne_zero hprev_ne
        have hprevM : getw s (bit >>> bits_per_int_lg2) < M32 := hw _ (getD_mem hwlt)
        have hc31 : countrOne (getw s (bit >>> bits_per_int_lg2)) ≤ 31 :=
          countrOne_le_31 hprevM hfull
        rw [acqLoopLg2_step_taken hfull hset, acqLoop_step_taken hfull hset]
        rcases Nat.eq_zero_or_pos word_count with hwc0 | hwcpos
        · subst hwc0
          have hword0 : bit >>> bits_per_int_lg2 = 0 := by
            rw [Nat.max_eq_right (by omega)] at hword
            rw [shr5_eq] at hword ⊢
            omega
          have hbit1 : (bit >>> bits_per_int_lg2) <<< bits_per_int_lg2 |||
              countrOne (getw s (bit >>> bits_per_int_lg2)) =
              countrOne (getw s (bit >>> bits_per_int_lg2)) := by
            rw [hword0, Nat.zero_shiftLeft, Nat.zero_or]
          by_cases hbb : bit_bound ≤ (bit >>> bits_per_int_lg2) <<< bits_per_int_lg2 |||
              countrOne (getw s (bit >>> bits_per_int_lg2))
          · rw [if_pos hbb]
            have hwrap : ((if bit >>> bits_per_int_lg2 + 1 < 0
                then (bit >>> bits_per_int_lg2 + 1) <<< bits_per_int_lg2 else 0) |||
                (((bit >>> bits_per_int_lg2) <<< bits_per_int_lg2 |||
                  countrOne (getw s (bit >>> bits_per_int_lg2))) &&& bits_per_int_mask)) =
                (bit >>> bits_per_int_lg2) <<< bits_per_int_lg2 |||
                  countrOne (getw s (bit >>> bits_per_int_lg2)) := by
              rw [if_neg (by omega), Nat.zero_or, hbit1, mask31_eq,
                Nat.mod_eq_of_lt (by omega)]
            rw [hwrap]
            apply ih s _ hw
            rw [hbit1, shr5_eq, Nat.max_eq_right (by omega)]
            omega
          · rw [if_neg hbb]
            apply ih s _ hw
            rw [hbit1, shr5_eq, Nat.max_eq_right (by omega)]
            omega
        · have hbbeq : bit_bound = 32 * word_count := by
            rcases hb with hb | hb
            · exact hb
            · omega
          have hwmax : bit >>> bits_per_int_lg2 < word_count := by
            rw [Nat.max_eq_left (by omega)] at hword
            exact hword
          have hb1w : ((bit >>> bits_per_int_lg2) <<< bits_per_int_lg2 |||
              countrOne (getw s (bit >>> bits_per_int_lg2))) >>> bits_per_int_lg2 =
              bit >>> bits_per_int_lg2 := word_of_or (by omega)
          have hb1lt : (bit >>> bits_per_int_lg2) <<< bits_per_int_lg2 |||
              countrOne (getw s (bit >>> bits_per_int_lg2)) < bit_bound := by
            have hd := bit_decomp ((bit >>> bits_per_int_lg2) <<< bits_per_int_lg2 |||
              countrOne (getw s (bit >>> bits_per_int_lg2)))
            have hr := rem_lt_32 ((bit >>> bits_per_int_lg2) <<< bits_per_int_lg2 |||
              countrOne (getw s (bit >>> bits_per_int_lg2)))
            rw [hb1w] at hd
            omega
          rw [if_neg (by omega)]
          apply ih s _ hw
          rw [hb1w, Nat.max_eq_left (by omega)]
          exact hwmax

/-- Claim C10: for every buffer whose words are `uint32_t` values, every
`bit_bound_lg2 ≤ 25`, every hint `bit < 2^bit_bound_lg2`, every valid
`state_header` and the same iteration budget,
`acquire_bounded_lg2(buffer, lg2, bit, hdr)` returns exactly the same
`(which_bit, bit_count)` pair and the same final buffer as
`acquire_bounded(buffer, 2^lg2, bit, hdr)`. -/
theorem acquire_lg2_refines_bounded (fuel : Nat) (s : BState) (lg2 bit hdr : Nat)
    (hlg : lg2 ≤ max_bit_count_lg2) (hbit : bit < 2 ^ lg2)
    (hhdr : hdr &&& ((M32 - 1) ^^^ state_header_mask) = 0)
    (hw : ∀ w ∈ s.words, w < M32) :
    acquire_bounded_lg2 fuel s lg2 bit hdr = acquire_bounded fuel s (2 ^ lg2) bit hdr := by
  have hshl : (1 : Nat) <<< lg2 = 2 ^ lg2 := one_shl lg2
  have hcap : (2 : Nat) ^ lg2 ≤ max_bit_count := by
    rw [max_bit_count_eq]
    apply Nat.pow_le_pow_right (by norm_num)
    unfold max_bit_count_lg2 at hlg
    omega
  have hval2 : ¬ (max_bit_count < 2 ^ lg2 ∨
      hdr &&& ((M32 - 1) ^^^ state_header_mask) ≠ 0 ∨ 2 ^ lg2 ≤ bit) := by
    push_neg
    exact ⟨by omega, hhdr, by omega⟩
  have hval1 : ¬ (max_bit_count_lg2 < lg2 ∨
      hdr &&& ((M32 - 1) ^^^ state_header_mask) ≠ 0 ∨ 1 <<< lg2 < bit) := by
    push_neg
    exact ⟨by omega, hhdr, by rw [hshl]; omega⟩
  by_cases herr : hdr = s.header &&& state_header_mask
  · by_cases hfull : 2 ^ lg2 ≤ s.header &&& state_used_mask
    · rw [acquire_lg2_full hval1 herr (by rw [hshl]; omega),
        acquire_bounded_full hval2 herr hfull]
    · rw [acquire_lg2_to_loop hval1 herr (by rw [hshl]; omega),
        acquire_bounded_to_loop hval2 herr (by omega), hshl]
      have hb : (2 : Nat) ^ lg2 = 32 * ((2 ^ lg2) >>> bits_per_int_lg2) ∨
          (2 ^ lg2) >>> bits_per_int_lg2 = 0 := by
        rw [shr5_eq]
        rcases Nat.lt_or_ge lg2 5 with h5 | h5
        · right
          have hlt32 : (2 : Nat) ^ lg2 < 32 := by
            calc (2 : Nat) ^ lg2 ≤ 2 ^ 4 := Nat.pow_le_pow_right (by norm_num) (by omega)
              _ < 32 := by norm_num
          omega
        · left
          have hdvd : (32 : Nat) ∣ 2 ^ lg2 := by
            have h32 : (32 : Nat) = 2 ^ 5 := by norm_num
            rw [h32]
            exact pow_dvd_pow 2 h5
          omega
      apply acqLoopLg2_eq_acqLoop hb fuel ⟨(s.header + 1) % M32, s.words⟩ bit hw
      show bit >>> bits_per_int_lg2 < max ((2 ^ lg2) >>> bits_per_int_lg2) 1
      rw [shr5_eq, shr5_eq]
      rcases hb with hb | hb
      · rw [shr5_eq] at hb
        refine lt_max_iff.mpr (Or.inl ?_)
        omega
      · rw [shr5_eq] at hb
        refine lt_max_iff.mpr (Or.inr ?_)
        omega
  · rw [acquire_lg2_tag_error hval1 herr, acquire_bounded_tag_error hval2 herr]

/-- Claim C10 witness: both variants agree at `lg2 = 3`, hint `2`, on a
fresh one-word buffer. -/
theorem acquire_lg2_refines_bounded_witness :
    acquire_bounded_lg2 1 ⟨0, [0]⟩ 3 2 0 = acquire_bounded 1 ⟨0, [0]⟩ (2 ^ 3) 2 0 :=
  acquire_lg2_refines_bounded 1 ⟨0, [0]⟩ 3 2 0 (by decide) (by decide) (by decide)
    (by intro w hw2; simp at hw2; subst hw2; decide)

lemma testBit_or_one_shl_ne {x r j : Nat} (h : j ≠ r) :
    (x ||| (1 <<< r)).testBit j = x.testBit j := by
  rw [one_shl, Nat.testBit_or, Nat.testBit_two_pow_of_ne (fun he => h he.symm),
    Bool.or_false]

lemma fill_step {C k : Nat} {s : BState} (hC : C ≤ max_bit_count) (hk : k < C)
    (hP : FillState C k s) :
    acquire_bounded 1 s C (s.header &&& state_used_mask) 0 =
      some ((Int.ofNat k, Int.ofNat (k + 1)), ⟨k + 1, s.words.set (k >>> bits_per_int_lg2)
        ((getw s (k >>> bits_per_int_lg2)) ||| (1 <<< (k &&& bits_per_int_mask)))⟩) ∧
    FillState C (k + 1) ⟨k + 1, s.words.set (k >>> bits_per_int_lg2)
      ((getw s (k >>> bits_per_int_lg2)) ||| (1 <<< (k &&& bits_per_int_mask)))⟩ := by
  obtain ⟨hhead, hlen, hbits⟩ := hP
  have hC' : C ≤ 2 ^ 25 := by
    rw [max_bit_count_eq] at hC
    exact hC
  have hpow : (2 : Nat) ^ 25 < 2 ^ 26 := by norm_num
  have hkk : k &&& state_used_mask = k := by
    rw [usedmask_eq]
    omega
  have hhint : s.header &&& state_used_mask = k := by
    rw [hhead]
    exact hkk
  have hwlt : k >>> bits_per_int_lg2 < s.words.length := by
    rw [hlen]
    exact word_lt_bitmap_words hk
  have hfree : (getw s (k >>> bits_per_int_lg2)).testBit (k &&& bits_per_int_mask) =
      false := by
    have := hbits k
    unfold bitGet at this
    simpa using this
  have hstep : acquire_bounded 1 s C (s.header &&& state_used_mask) 0 =
      some ((Int.ofNat k, Int.ofNat (k + 1)), ⟨k + 1,
        s.words.set (k >>> bits_per_int_lg2)
          ((getw s (k >>> bits_per_int_lg2)) ||| (1 <<< (k &&& bits_per_int_mask)))⟩) := by
    rw [acquire_bounded_to_loop
      (by push_neg; refine ⟨by omega, by rw [Nat.zero_and], by omega⟩)
      (by rw [hhead, and_hmask]; omega)
      (by omega)]
    rw [hhint, hhead]
    have hmod : (k + 1) % M32 = k + 1 := by
      rw [M32_val]
      omega
    rw [hmod]
    rw [acqLoop_step_free
      (show (getw ⟨k + 1, s.words⟩ (k >>> bits_per_int_lg2)).testBit
        (k &&& bits_per_int_mask) = false from hfree)]
    rfl
  refine ⟨hstep, rfl, ?_, ?_⟩
  · show (s.words.set _ _).length = _
    rw [List.length_set]
    exact hlen
  · intro i
    show ((s.words.set (k >>> bits_per_int_lg2) _).getD (i >>> bits_per_int_lg2) 0).testBit
      (i &&& bits_per_int_mask) = decide (i < k + 1)
    by_cases hsame : k >>> bits_per_int_lg2 = i >>> bits_per_int_lg2
    · rw [← hsame, getD_set_self _ hwlt]
      by_cases hik : i = k
      · subst hik
        rw [testBit_or_one_shl_self]
        simp
      · have hrne : i &&& bits_per_int_mask ≠ k &&& bits_per_int_mask := by
          intro hr
          apply hik
          have hi := bit_decomp i
          have hb := bit_decomp k
          omega
        rw [testBit_or_one_shl_ne hrne]
        have hbi := hbits i
        unfold bitGet getw at hbi
        rw [← hsame] at hbi
        show (s.words.getD (k >>> bits_per_int_lg2) 0).testBit (i &&& bits_per_int_mask) =
          decide (i < k + 1)
        rw [hbi]
        simp only [decide_eq_decide]
        omega
    · rw [getD_set_ne _ hsame]
      have hbi := hbits i
      unfold bitGet getw at hbi
      rw [hbi]
      have hik : i ≠ k := by
        intro he
        exact hsame (by rw [he])
      simp only [decide_eq_decide]
      omega

lemma runAcquires_fill {C : Nat} (hC : C ≤ max_bit_count) :
    ∀ (n k : Nat) (s : BState), FillState C k s → k + n ≤ C →
    ∃ f : BState,
      runAcquires C n s =
        some ((List.range' k n).map (fun j => (Int.ofNat j, Int.ofNat (j + 1))), f) ∧
      FillState C (k + n) f := by
  intro n
  induction n with
  | zero =>
    intro k s hP h
    exact ⟨s, rfl, by simpa using hP⟩
  | succ m ih =>
    intro k s hP h
    obtain ⟨hstep, hP'⟩ := fill_step hC (by omega) hP
    obtain ⟨f, hrun, hPf⟩ := ih (k + 1) _ hP' (by omega)
    refine ⟨f, ?_, ?_⟩
    · simp only [runAcquires, hstep, hrun, List.range'_succ, List.map_cons]
    · have he : k + (m + 1) = k + 1 + m := by omega
      rw [he]
      exact hPf

/-- Claim C4: on a fresh zero-initialized buffer of capacity `C` (tag `0`,
`1 ≤ C ≤ 2^25`), running `C` sequential acquires — the `k`-th using the
current used-count as hint — all succeed, returning exactly the pairwise
distinct bits `0, 1, ..., C-1` with used-counts `1, ..., C`, after which the
used-count is `C` and one further acquire, with any in-range hint, fails
with Full, returning `(-1, -1)` and leaving the buffer unchanged. -/
theorem fill_and_exhaust (C : Nat) (h1 : 1 ≤ C) (h2 : C ≤ max_bit_count) :
    ∃ f : BState,
      runAcquires C C (freshState C) =
        some ((List.range C).map (fun j => (Int.ofNat j, Int.ofNat (j + 1))), f) ∧
      usedOf f = C ∧
      (((List.range C).map (fun j => (Int.ofNat j, Int.ofNat (j + 1)))).map
        Prod.fst).Nodup ∧
      ∀ hint : Nat, hint < C →
        acquire_bounded 1 f C hint 0 = some (((-1 : Int), (-1 : Int)), f) := by
  have hC' : C ≤ 2 ^ 25 := by
    rw [max_bit_count_eq] at h2
    exact h2
  have hpow : (2 : Nat) ^ 25 < 2 ^ 26 := by norm_num
  have hP0 : FillState C 0 (freshState C) := by
    refine ⟨rfl, by simp [freshState], ?_⟩
    intro i
    show ((List.replicate (bitmap_words C) 0).getD (i >>> bits_per_int_lg2) 0).testBit
      (i &&& bits_per_int_mask) = decide (i < 0)
    rw [getD_replicate_zero, Nat.zero_testBit]
    simp
  obtain ⟨f, hrun, hPf⟩ := runAcquires_fill h2 C 0 (freshState C) hP0 (by omega)
  obtain ⟨hfh, hflen, hfbits⟩ := hPf
  have hfC : f.header = C := by omega
  refine ⟨f, ?_, ?_, ?_, ?_⟩
  · rw [hrun, List.range_eq_range']
  · show f.header &&& state_used_mask = C
    rw [hfC, usedmask_eq]
    omega
  · rw [List.map_map]
    refine List.Nodup.map ?_ (List.nodup_range C)
    intro a b hab
    simpa using hab
  · intro hint hlt
    rw [acquire_bounded_full
      (by push_neg; refine ⟨by omega, by rw [Nat.zero_and], by omega⟩)
      (by rw [hfC, and_hmask]; omega)
      (by rw [hfC, usedmask_eq]; omega)]
    have hrt : ((f.header + 1) % M32 + (M32 - 1)) % M32 = f.header :=
      header_roundtrip (by rw [hfC, M32_val]; omega)
    rw [hrt]

/-- Claim C4 witness: the concrete scenario of the spec, capacity `8`. -/
theorem fill_and_exhaust_witness :
    ∃ f : BState,
      runAcquires 8 8 (freshState 8) =
        some ((List.range 8).map (fun j => (Int.ofNat j, Int.ofNat (j + 1))), f) ∧
      usedOf f = 8 ∧
      (((List.range 8).map (fun j => (Int.ofNat j, Int.ofNat (j + 1)))).map
        Prod.fst).Nodup ∧
      ∀ hint : Nat, hint < 8 →
        acquire_bounded 1 f 8 hint 0 = some (((-1 : Int), (-1 : Int)), f) :=
  fill_and_exhaust 8 (by norm_num) (by decide)

end ConcurrentBitset
